import Mathlib

set_option maxRecDepth 40000

/-!
Verification development for the sunshine coroutine runtime and its
collaborators.  The definitions below are shallow embeddings of the
C++ sources: the chained-block byte buffer codec from bytearray.cpp,
the fd event table of the IOManager from iomanager.cpp, the Fiber
state machine from fiber.cpp, the Scheduler task queue from
scheduler.cpp and scheduler.h, and the reactor stop protocol from
scheduler.cpp together with iomanager.cpp.  Machine integers are
modelled as Nat or Int with explicit reductions modulo two to the
word width at the points where the C++ code performs fixed-width
arithmetic.  Fallible operations return Except values paired with
the post state, mirroring objects that persist across a thrown
exception.
-/

namespace sunshine

/-! Little endian byte strings for fixed width integers.  The C++
code writes the in-memory representation of an integer with memcpy;
toBytesLE and fromBytesLE model that representation on a little
endian host and the reversed list models a big endian host. -/

def toBytesLE : Nat → Nat → List Nat
  | 0, _ => []
  | w + 1, v => v % 256 :: toBytesLE w (v / 256)

def fromBytesLE : List Nat → Nat
  | [] => 0
  | b :: bs => b + 256 * fromBytesLE bs

/-- Byte reversal of a w byte integer, the effect of the boost endian
conversion calls in convert_native_to_target_endian_if_needed when the
host and target endianness differ. -/
def byteswap (w v : Nat) : Nat := fromBytesLE ((toBytesLE w v).reverse)

/-- Endian normalization from bytearray.cpp: identity for one byte
integers and when the host endianness flag equals the target flag of
the buffer, byte reversal otherwise.  The host endianness is an
ambient platform parameter, passed explicitly. -/
def convertEndian (w v target : Nat) (hostBig : Bool) : Nat :=
  if w = 1 then v
  else if (if hostBig then 1 else 0) = target then v
  else byteswap w v

/-- Memory image of a w byte unsigned integer on the given host:
little endian byte order on a little endian host, reversed otherwise. -/
def hostBytes (hostBig : Bool) (w v : Nat) : List Nat :=
  if hostBig then (toBytesLE w v).reverse else toBytesLE w v

/-- Reading a memory image back into an integer on the given host. -/
def hostFromBytes (hostBig : Bool) (l : List Nat) : Nat :=
  if hostBig then fromBytesLE l.reverse else fromBytesLE l

/-! ByteArray, the chained block buffer of bytearray.cpp.  Every node
of the chain is allocated with m_baseSize bytes, so the chain is a
contiguous byte store addressed by the global offset m_position; the
field data models the concatenation of all node payloads and always
has length m_capacity.  The field cur models m_cur as the index of the
current node in the chain; the node walks performed by the source on
uniformly sized nodes land on the node with index position divided by
baseSize, with an index past the last node standing for the null
pointer.  The host endianness that the source reads from std endian
native is carried as the field hostBig. -/

inductive RdErr where
  | outOfRange
  | nullNode
  deriving DecidableEq, Repr

structure ByteArray where
  data : List Nat
  baseSize : Nat
  position : Nat
  size : Nat
  capacity : Nat
  endian : Nat
  hostBig : Bool
  cur : Nat
  deriving DecidableEq, Repr

/-- Constructor of bytearray.cpp: one root node of base_size bytes,
position and size zero, endianness flag taken from the host. -/
def mkByteArray (base : Nat) (hostBig : Bool) : ByteArray :=
  { data := List.replicate base 0
    baseSize := base
    position := 0
    size := 0
    capacity := base
    endian := if hostBig then 1 else 0
    hostBig := hostBig
    cur := 0 }

/-- Well-formedness carried by every reachable buffer object. -/
def ByteArray.wf (ba : ByteArray) : Prop :=
  ba.data.length = ba.capacity ∧ 0 < ba.baseSize ∧
    ba.position ≤ ba.size ∧ ba.size ≤ ba.capacity

instance (ba : ByteArray) : Decidable ba.wf := by
  unfold ByteArray.wf; exact inferInstance

def ByteArray.getReadSize (ba : ByteArray) : Nat := ba.size - ba.position

def ByteArray.getCapacity (ba : ByteArray) : Nat := ba.capacity - ba.position

/-- The readable bytes starting at offset p, length n. -/
def ByteArray.bytesAt (ba : ByteArray) (p n : Nat) : List Nat :=
  (ba.data.drop p).take n

/-- addCapacity of bytearray.cpp: append enough base sized nodes so
that at least n bytes fit after the current position; when the old
remaining capacity was zero move cur to the first appended node. -/
def ByteArray.addCapacity (ba : ByteArray) (n : Nat) : ByteArray :=
  if n = 0 then ba
  else
    let old_cap := ba.getCapacity
    if n ≤ old_cap then ba
    else
      let need := n - old_cap
      let count := (need + ba.baseSize - 1) / ba.baseSize
      { ba with
        data := ba.data ++ List.replicate (count * ba.baseSize) 0
        capacity := ba.capacity + count * ba.baseSize
        cur := if old_cap = 0 then ba.capacity / ba.baseSize else ba.cur }

/-- write of bytearray.cpp: ensure capacity, then copy the bytes into
the chain starting at position, advancing position and extending size
when the write goes past it.  The per node memcpy loop of the source
writes exactly the byte range from position to position plus the
length, modelled as a list splice on the flat store. -/
def ByteArray.write (ba : ByteArray) (bs : List Nat) : ByteArray :=
  if bs.isEmpty then ba
  else
    let s1 := ba.addCapacity bs.length
    let p := s1.position
    { s1 with
      data := s1.data.take p ++ bs ++ s1.data.drop (p + bs.length)
      position := p + bs.length
      size := if p + bs.length > s1.size then p + bs.length else s1.size
      cur := (p + bs.length) / s1.baseSize }

/-- Streaming read of bytearray.cpp: a zero byte request returns at
once; a request larger than the readable length throws out_of_range
before anything is copied, leaving the object untouched; otherwise
the bytes from position are returned and position advances. -/
def ByteArray.read (ba : ByteArray) (n : Nat) :
    Except RdErr (List Nat) × ByteArray :=
  if n = 0 then (.ok [], ba)
  else if n > ba.getReadSize then (.error .outOfRange, ba)
  else
    let res := (ba.data.drop ba.position).take n
    let p := ba.position + n
    (.ok res, { ba with position := p, cur := p / ba.baseSize })

/-- setPosition of bytearray.cpp: reject positions beyond capacity,
extend size when seeking past it, recompute the current node. -/
def ByteArray.setPosition (ba : ByteArray) (v : Nat) :
    Except Unit ByteArray :=
  if v > ba.capacity then .error ()
  else .ok { ba with
    position := v
    size := if v > ba.size then v else ba.size
    cur := v / ba.baseSize }

/-- Fixed width unsigned write: endian normalize the value, then
write its memory image.  writeFuint8 .. writeFuint64 instantiate the
width; the one byte variant performs no conversion in the source and
convertEndian is the identity at width one. -/
def ByteArray.writeFixed (ba : ByteArray) (w v : Nat) : ByteArray :=
  ba.write (hostBytes ba.hostBig w (convertEndian w v ba.endian ba.hostBig))

/-- Fixed width unsigned read: read the memory image, then endian
normalize, mirroring readFuint8 .. readFuint64. -/
def ByteArray.readFixed (ba : ByteArray) (w : Nat) :
    Except RdErr Nat × ByteArray :=
  match ba.read w with
  | (.error e, s) => (.error e, s)
  | (.ok bs, s) =>
    (.ok (convertEndian w (hostFromBytes ba.hostBig bs) ba.endian ba.hostBig), s)

def ByteArray.writeFuint8 (ba : ByteArray) (v : Nat) : ByteArray := ba.writeFixed 1 v

def ByteArray.writeFuint16 (ba : ByteArray) (v : Nat) : ByteArray := ba.writeFixed 2 v

def ByteArray.writeFuint32 (ba : ByteArray) (v : Nat) : ByteArray := ba.writeFixed 4 v

def ByteArray.writeFuint64 (ba : ByteArray) (v : Nat) : ByteArray := ba.writeFixed 8 v

def ByteArray.readFuint8 (ba : ByteArray) : Except RdErr Nat × ByteArray := ba.readFixed 1

def ByteArray.readFuint16 (ba : ByteArray) : Except RdErr Nat × ByteArray := ba.readFixed 2

def ByteArray.readFuint32 (ba : ByteArray) : Except RdErr Nat × ByteArray := ba.readFixed 4

def ByteArray.readFuint64 (ba : ByteArray) : Except RdErr Nat × ByteArray := ba.readFixed 8

/-- Two complement interpretation of a w byte unsigned value, the
effect of reading memory back into a signed integer. -/
def toSigned (w n : Nat) : Int :=
  if n < 2 ^ (8 * w - 1) then (n : Int) else (n : Int) - 2 ^ (8 * w)

/-- Fixed width signed write: the memory image of a signed integer is
the image of its value modulo two to the width. -/
def ByteArray.writeFixedI (ba : ByteArray) (w : Nat) (v : Int) : ByteArray :=
  ba.writeFixed w ((v % ((2 : Int) ^ (8 * w))).toNat)

def ByteArray.readFixedI (ba : ByteArray) (w : Nat) :
    Except RdErr Int × ByteArray :=
  match ba.readFixed w with
  | (.error e, s) => (.error e, s)
  | (.ok n, s) => (.ok (toSigned w n), s)

def ByteArray.writeFint8 (ba : ByteArray) (v : Int) : ByteArray := ba.writeFixedI 1 v

def ByteArray.writeFint16 (ba : ByteArray) (v : Int) : ByteArray := ba.writeFixedI 2 v

def ByteArray.writeFint32 (ba : ByteArray) (v : Int) : ByteArray := ba.writeFixedI 4 v

def ByteArray.writeFint64 (ba : ByteArray) (v : Int) : ByteArray := ba.writeFixedI 8 v

def ByteArray.readFint8 (ba : ByteArray) : Except RdErr Int × ByteArray := ba.readFixedI 1

def ByteArray.readFint16 (ba : ByteArray) : Except RdErr Int × ByteArray := ba.readFixedI 2

def ByteArray.readFint32 (ba : ByteArray) : Except RdErr Int × ByteArray := ba.readFixedI 4

def ByteArray.readFint64 (ba : ByteArray) : Except RdErr Int × ByteArray := ba.readFixedI 8

/-- writeFloat of bytearray.cpp bit casts the IEEE754 float to a 32
bit unsigned integer with memcpy and writes it fixed width; the model
takes the bit pattern directly, so the float round trip is the round
trip of the pattern. -/
def ByteArray.writeFloat (ba : ByteArray) (bits : Nat) : ByteArray := ba.writeFuint32 bits

def ByteArray.readFloat (ba : ByteArray) : Except RdErr Nat × ByteArray := ba.readFuint32

def ByteArray.writeDouble (ba : ByteArray) (bits : Nat) : ByteArray := ba.writeFuint64 bits

def ByteArray.readDouble (ba : ByteArray) : Except RdErr Nat × ByteArray := ba.readFuint64

/-- Base 128 varint encoding, the emit loop shared by writeUint32 and
writeUint64: emit seven low bits with the continuation flag while the
value is at least 0x80, then the final byte. -/
def varEncode (v : Nat) : List Nat :=
  if _h : 0x80 ≤ v then ((v &&& 0x7f) ||| 0x80) :: varEncode (v >>> 7)
  else [v]
termination_by v
decreasing_by
  simp only [Nat.shiftRight_eq_div_pow]
  omega

def ByteArray.writeUint32 (ba : ByteArray) (v : Nat) : ByteArray := ba.write (varEncode v)

def ByteArray.writeUint64 (ba : ByteArray) (v : Nat) : ByteArray := ba.write (varEncode v)

/-- The read loop of readUint32 and readUint64: for shift amounts i
below the width, read one byte; a byte without the continuation flag
ends the loop, otherwise the seven payload bits are accumulated and
the shift advances by seven.  The accumulation is uint arithmetic of
the given width, hence the reduction modulo two to the width. -/
def varDecodeLoop (width : Nat) (i acc : Nat) (ba : ByteArray) :
    Except RdErr Nat × ByteArray :=
  if _h : i < width then
    match ba.readFixed 1 with
    | (.error e, s) => (.error e, s)
    | (.ok b, s) =>
      if b < 0x80 then (.ok (acc ||| ((b <<< i) % 2 ^ width)), s)
      else varDecodeLoop width (i + 7) (acc ||| (((b &&& 0x7f) <<< i) % 2 ^ width)) s
  else (.ok acc, ba)
termination_by width - i

def ByteArray.readUint32 (ba : ByteArray) : Except RdErr Nat × ByteArray :=
  varDecodeLoop 32 0 0 ba

def ByteArray.readUint64 (ba : ByteArray) : Except RdErr Nat × ByteArray :=
  varDecodeLoop 64 0 0 ba

/-- The unsigned 32 bit image of an int32 value. -/
def toUInt32Nat (v : Int) : Nat := (v % ((2 : Int) ^ 32)).toNat

def toUInt64Nat (v : Int) : Nat := (v % ((2 : Int) ^ 64)).toNat

/-- EncodeZigzag32 of bytearray.cpp: the value shifted left once in
uint32 arithmetic, xor the arithmetic shift of the sign bit, which
for an int32 value is all ones exactly when the value is negative. -/
def EncodeZigzag32 (v : Int) : Nat :=
  ((toUInt32Nat v <<< 1) % 2 ^ 32) ^^^ toUInt32Nat (if v < 0 then -1 else 0)

def EncodeZigzag64 (v : Int) : Nat :=
  ((toUInt64Nat v <<< 1) % 2 ^ 64) ^^^ toUInt64Nat (if v < 0 then -1 else 0)

/-- DecodeZigzag32 of bytearray.cpp: the value shifted right once xor
the two complement negation of the low bit in uint32 arithmetic, cast
back to a signed integer. -/
def DecodeZigzag32 (u : Nat) : Int :=
  toSigned 4 ((u >>> 1) ^^^ ((((2 ^ 32 - 1) ^^^ (u &&& 1)) + 1) % 2 ^ 32))

def DecodeZigzag64 (u : Nat) : Int :=
  toSigned 8 ((u >>> 1) ^^^ ((((2 ^ 64 - 1) ^^^ (u &&& 1)) + 1) % 2 ^ 64))

def ByteArray.writeInt32 (ba : ByteArray) (v : Int) : ByteArray :=
  ba.writeUint32 (EncodeZigzag32 v)

def ByteArray.writeInt64 (ba : ByteArray) (v : Int) : ByteArray :=
  ba.writeUint64 (EncodeZigzag64 v)

/-- readInt32 of bytearray.cpp: DecodeZigzag32 applied to readFuint32,
a FIXED four byte read, although writeInt32 emits a varint; the pair
is asymmetric in the source. -/
def ByteArray.readInt32 (ba : ByteArray) : Except RdErr Int × ByteArray :=
  match ba.readFuint32 with
  | (.error e, s) => (.error e, s)
  | (.ok u, s) => (.ok (DecodeZigzag32 u), s)

/-- readInt64 of bytearray.cpp: DecodeZigzag64 of the fixed eight byte
readFuint64, against the varint writeInt64. -/
def ByteArray.readInt64 (ba : ByteArray) : Except RdErr Int × ByteArray :=
  match ba.readFuint64 with
  | (.error e, s) => (.error e, s)
  | (.ok u, s) => (.ok (DecodeZigzag64 u), s)

/-- writeStringF16 and friends from bytearray.cpp: the length cast to
the prefix width is written fixed width, then the raw bytes of the
whole string; a length beyond the prefix range is truncated by the
cast while the body is written in full. -/
def ByteArray.writeStringFixed (ba : ByteArray) (w : Nat) (s : List Nat) : ByteArray :=
  (ba.writeFixed w s.length).write s

def ByteArray.writeStringF16 (ba : ByteArray) (s : List Nat) : ByteArray :=
  ba.writeStringFixed 2 s

def ByteArray.writeStringF32 (ba : ByteArray) (s : List Nat) : ByteArray :=
  ba.writeStringFixed 4 s

def ByteArray.writeStringF64 (ba : ByteArray) (s : List Nat) : ByteArray :=
  ba.writeStringFixed 8 s

def ByteArray.writeStringVint (ba : ByteArray) (s : List Nat) : ByteArray :=
  (ba.writeUint64 s.length).write s

/-- readStringF16 and friends from bytearray.cpp: read the fixed
width length, then that many raw bytes; a zero length returns the
empty string without a read call. -/
def ByteArray.readStringFixed (ba : ByteArray) (w : Nat) :
    Except RdErr (List Nat) × ByteArray :=
  match ba.readFixed w with
  | (.error e, s) => (.error e, s)
  | (.ok len, s) => if len = 0 then (.ok [], s) else s.read len

def ByteArray.readStringF16 (ba : ByteArray) :
    Except RdErr (List Nat) × ByteArray :=
  ba.readStringFixed 2

def ByteArray.readStringF32 (ba : ByteArray) :
    Except RdErr (List Nat) × ByteArray :=
  ba.readStringFixed 4

def ByteArray.readStringF64 (ba : ByteArray) :
    Except RdErr (List Nat) × ByteArray :=
  ba.readStringFixed 8

def ByteArray.readStringVint (ba : ByteArray) :
    Except RdErr (List Nat) × ByteArray :=
  match ba.readUint64 with
  | (.error e, s) => (.error e, s)
  | (.ok len, s) => if len = 0 then (.ok [], s) else s.read len

/-! IOManager fd event table, from iomanager.cpp.  The epoll instance
is external operating system state: each operation reports the
epoll_ctl call it issues as an EpollOp value carrying the READ and
WRITE mask (the source always adds the edge triggered, error and hang
up flags on top of it), and addEvent takes the overall success of the
epoll_ctl dance, including the ADD and MOD retry on races, as a
boolean input.  File descriptors are modelled as Nat: the source
rejects negative descriptors before touching any state, so that
branch is vacuous here.  Event masks use the source values NONE zero,
READ one, WRITE four.  Continuations are identified by numeric
labels.  The pending event counter is a 64 bit unsigned atomic,
updated modulo two to the sixty four. -/

inductive Cont where
  | cb (f : Nat)
  | fiber (f : Nat)
  deriving DecidableEq, Repr

inductive EpollOp where
  | add (events : Nat)
  | mod (events : Nat)
  | del
  deriving DecidableEq, Repr

structure EventContext where
  scheduler : Bool := false
  fiber : Option Nat := none
  cb : Option Nat := none
  deriving DecidableEq, Repr

structure FdContext where
  events : Nat := 0
  read : EventContext := {}
  write : EventContext := {}
  fd : Nat := 0
  deriving DecidableEq, Repr

/-- getContext of iomanager.h: the read context for READ, the write
context otherwise. -/
def FdContext.getContext (c : FdContext) (ev : Nat) : EventContext :=
  if ev = 1 then c.read else c.write

/-- Functional update of the event context selected by getContext. -/
def FdContext.setContext (c : FdContext) (ev : Nat) (e : EventContext) : FdContext :=
  if ev = 1 then { c with read := e } else { c with write := e }

structure IOState where
  fdContexts : List (Option FdContext)
  pendingEventCount : Nat
  deriving DecidableEq, Repr

/-- The fd context table right after the IOManager constructor, which
resizes the vector to 128 empty slots. -/
def initIOState : IOState :=
  { fdContexts := List.replicate 128 none, pendingEventCount := 0 }

def IOState.ctxAt (s : IOState) (fd : Nat) : Option FdContext :=
  s.fdContexts.getD fd none

def IOState.eventsAt (s : IOState) (fd : Nat) : Nat :=
  match s.ctxAt fd with
  | some c => c.events
  | none => 0

def IOState.ectxAt (s : IOState) (fd ev : Nat) : EventContext :=
  match s.ctxAt fd with
  | some c => c.getContext ev
  | none => {}

/-- The doubling loop of resizeFdContext: double the size until the
descriptor fits.  A zero size never grows, matching the source loop
which would not terminate; the constructor guarantees 128 slots. -/
def growSize (sz fd : Nat) : Nat :=
  if _h1 : fd < sz then sz
  else if _h2 : sz = 0 then 0
  else growSize (2 * sz) fd
termination_by fd + 1 - sz
decreasing_by omega

/-- resizeFdContext of iomanager.cpp: grow the vector by doubling
until fd fits, then allocate the context lazily. -/
def resizeFdContext (s : IOState) (fd : Nat) : IOState :=
  let grown := if s.fdContexts.length ≤ fd
    then s.fdContexts ++
      List.replicate (growSize s.fdContexts.length fd - s.fdContexts.length) none
    else s.fdContexts
  let ensured := if (grown.getD fd none).isNone
    then grown.set fd (some { fd := fd })
    else grown
  { s with fdContexts := ensured }

def add64 (c : Nat) : Nat := (c + 1) % 2 ^ 64

def sub64 (c k : Nat) : Nat := (c + (2 ^ 64 - k)) % 2 ^ 64

inductive AddErr where
  | einval
  | eexist
  | epollErr
  deriving DecidableEq, Repr

/-- addEvent of iomanager.cpp.  Ensure the context, fail with EEXIST
when the event is already armed, issue ADD when the mask was empty
and MOD otherwise, and on success store the scheduler pointer and the
callback in the per event context, set the new mask and increment the
pending event count.  The none branch after resize is unreachable
when the table is nonempty and is reported as an epoll error. -/
def addEvent (s : IOState) (fd ev : Nat) (cb : Option Nat) (epollOk : Bool) :
    (Except AddErr Unit) × IOState × Option EpollOp :=
  let s1 := resizeFdContext s fd
  match _h : s1.ctxAt fd with
  | none => (.error .epollErr, s1, none)
  | some ctx =>
    if ctx.events &&& ev ≠ 0 then (.error .eexist, s1, none)
    else
      let op := if ctx.events = 0 then EpollOp.add (ctx.events ||| ev)
        else EpollOp.mod (ctx.events ||| ev)
      if epollOk then
        let ectx' := { ctx.getContext ev with scheduler := true, cb := cb }
        let ctx' := ({ ctx with events := ctx.events ||| ev }).setContext ev ectx'
        (.ok (), { fdContexts := s1.fdContexts.set fd (some ctx'),
                   pendingEventCount := add64 s1.pendingEventCount }, some op)
      else (.error .epollErr, s1, some op)

structure IOOut where
  ret : Bool
  st : IOState
  op : Option EpollOp
  subs : List Cont
  deriving DecidableEq, Repr

/-- delEvent of iomanager.cpp: return false when the event is not
armed; otherwise DEL from epoll when the new mask is empty, else MOD,
reset the event context, decrement the pending count, and never
submit anything. -/
def delEvent (s : IOState) (fd ev : Nat) : IOOut :=
  if s.fdContexts.length ≤ fd then ⟨false, s, none, []⟩
  else match s.ctxAt fd with
  | none => ⟨false, s, none, []⟩
  | some ctx =>
    if ctx.events &&& ev = 0 then ⟨false, s, none, []⟩
    else
      let newEvents := ctx.events &&& (0xFFFFFFFF ^^^ ev)
      let op := if newEvents = 0 then EpollOp.del else EpollOp.mod newEvents
      let ctx' := ({ ctx with events := newEvents }).setContext ev {}
      ⟨true, { fdContexts := s.fdContexts.set fd (some ctx'),
               pendingEventCount := sub64 s.pendingEventCount 1 }, some op, []⟩

/-- cancelEvent of iomanager.cpp: like delEvent, but the stored
callback and fiber are captured before the reset and, after the
context mutex is released, the callback if present, else the fiber,
is submitted to the scheduler queue; the submission list is produced
from the state after the update, mirroring the submission after
unlock in the source. -/
def cancelEvent (s : IOState) (fd ev : Nat) : IOOut :=
  if s.fdContexts.length ≤ fd then ⟨false, s, none, []⟩
  else match s.ctxAt fd with
  | none => ⟨false, s, none, []⟩
  | some ctx =>
    if ctx.events &&& ev = 0 then ⟨false, s, none, []⟩
    else
      let ectx := ctx.getContext ev
      let newEvents := ctx.events &&& (0xFFFFFFFF ^^^ ev)
      let op := if newEvents = 0 then EpollOp.del else EpollOp.mod newEvents
      let ctx' := ({ ctx with events := newEvents }).setContext ev {}
      let subs := match ectx.cb, ectx.fiber with
        | some c, _ => [Cont.cb c]
        | none, some f => [Cont.fiber f]
        | none, none => []
      ⟨true, { fdContexts := s.fdContexts.set fd (some ctx'),
               pendingEventCount := sub64 s.pendingEventCount 1 }, some op, subs⟩

/-- cancelAll of iomanager.cpp: capture the callback and fiber of
both event contexts, DEL the descriptor from epoll, clear the mask
and both contexts, decrement the pending count by two on the stated
assumption that both events were armed, and submit every captured
continuation. -/
def cancelAll (s : IOState) (fd : Nat) : IOOut :=
  if s.fdContexts.length ≤ fd then ⟨false, s, none, []⟩
  else match s.ctxAt fd with
  | none => ⟨false, s, none, []⟩
  | some ctx =>
    if ctx.events = 0 then ⟨false, s, none, []⟩
    else
      let subs :=
        (match ctx.read.cb with | some c => [Cont.cb c] | none => []) ++
        (match ctx.read.fiber with | some f => [Cont.fiber f] | none => []) ++
        (match ctx.write.cb with | some c => [Cont.cb c] | none => []) ++
        (match ctx.write.fiber with | some f => [Cont.fiber f] | none => [])
      let ctx' := { ctx with events := 0, read := {}, write := {} }
      ⟨true, { fdContexts := s.fdContexts.set fd (some ctx'),
               pendingEventCount := sub64 s.pendingEventCount 2 }, some EpollOp.del, subs⟩

/-- triggerEvent of iomanager.cpp: called by the reactor loop; same
shape as cancelEvent with no boolean result in the source, the ret
field reports whether the event was armed. -/
def triggerEvent (s : IOState) (fd ev : Nat) : IOOut :=
  if s.fdContexts.length ≤ fd then ⟨false, s, none, []⟩
  else match s.ctxAt fd with
  | none => ⟨false, s, none, []⟩
  | some ctx =>
    if ctx.events &&& ev = 0 then ⟨false, s, none, []⟩
    else
      let ectx := ctx.getContext ev
      let newEvents := ctx.events &&& (0xFFFFFFFF ^^^ ev)
      let op := if newEvents = 0 then EpollOp.del else EpollOp.mod newEvents
      let ctx' := ({ ctx with events := newEvents }).setContext ev {}
      let subs := match ectx.cb, ectx.fiber with
        | some c, _ => [Cont.cb c]
        | none, some f => [Cont.fiber f]
        | none, none => []
      ⟨true, { fdContexts := s.fdContexts.set fd (some ctx'),
               pendingEventCount := sub64 s.pendingEventCount 1 }, some op, subs⟩

/-- Number of armed fd and event pairs contributed by one mask. -/
def maskPairs (e : Nat) : Nat :=
  (if e &&& 1 ≠ 0 then 1 else 0) + (if e &&& 4 ≠ 0 then 1 else 0)

/-- Total number of armed fd and event pairs across all fd contexts. -/
def armedPairs (s : IOState) : Nat :=
  (s.fdContexts.map (fun oc => match oc with
    | some c => maskPairs c.events
    | none => 0)).sum

/-- The event ev is armed on fd with the callback c stored, the state
cancelEvent acts on in the cancellation claim. -/
def ArmedCb (s : IOState) (fd ev c : Nat) : Prop :=
  ∃ ctx, s.ctxAt fd = some ctx ∧ ctx.events &&& ev ≠ 0 ∧
    (ctx.getContext ev).cb = some c

/-! Fiber state machine, from fiber.cpp.  A fiber record keeps the
state and the entry closure, identified by a numeric label; the thread
state keeps the table of fibers and the thread local main and current
fiber pointers.  Context switches carry no data here: only the
bookkeeping the source performs around swapcontext is modelled. -/

inductive FiberState where
  | INIT
  | HOLD
  | EXEC
  | TERM
  | READY
  deriving DecidableEq, Repr

structure FiberRec where
  state : FiberState := FiberState.INIT
  cb : Option Nat := none
  deriving DecidableEq, Repr

structure TS where
  fibers : List FiberRec
  tMain : Option Nat
  tCur : Option Nat
  deriving DecidableEq, Repr

def TS.fiberAt (ts : TS) (i : Nat) : FiberRec :=
  ts.fibers.getD i {}

def TS.updFiber (ts : TS) (i : Nat) (r : FiberRec) : TS :=
  { ts with fibers := ts.fibers.set i r }

/-- The private Fiber constructor: the new fiber keeps the default INIT
state and no closure, and both thread local pointers are set to it. -/
def newMainFiber (ts : TS) : TS :=
  { fibers := ts.fibers ++ [{}], tMain := some ts.fibers.length,
    tCur := some ts.fibers.length }

/-- GetThis of fiber.cpp: the current fiber, creating the main fiber
lazily when the thread has none. -/
def GetThis (ts : TS) : TS × Nat :=
  match ts.tCur with
  | some i => (ts, i)
  | none => (newMainFiber ts, ts.fibers.length)

/-- swapOut of fiber.cpp: require a main fiber, set HOLD only when the
state is EXEC at the call, and switch the current pointer back to the
main fiber. -/
def swapOut (ts : TS) (i : Nat) : Option TS :=
  match ts.tMain with
  | none => none
  | some m =>
    let r := ts.fiberAt i
    let ts1 := if r.state = FiberState.EXEC
      then ts.updFiber i { r with state := FiberState.HOLD }
      else ts
    some { ts1 with tCur := some m }

/-- YieldToReady of fiber.cpp: mark the current fiber READY, then swap
out. -/
def YieldToReady (ts : TS) : Option TS :=
  let p := GetThis ts
  let r := p.1.fiberAt p.2
  let ts2 := p.1.updFiber p.2 { r with state := FiberState.READY }
  swapOut ts2 p.2

/-- MainFunc of fiber.cpp, the entry trampoline: set the current
pointer to the fiber and mark EXEC, run the closure when present
inside the catch all, clear the closure and set TERM on normal return
but only set TERM when the closure throws, then point the current
fiber back at the main fiber.  The throws input tells whether the
closure raises. -/
def MainFunc (ts : TS) (i : Nat) (throws : Bool) : TS :=
  let ts1 := { ts.updFiber i { ts.fiberAt i with state := FiberState.EXEC } with tCur := some i }
  let r1 := ts1.fiberAt i
  let ts2 := if r1.cb.isSome && throws
    then ts1.updFiber i { r1 with state := FiberState.TERM }
    else ts1.updFiber i { r1 with cb := none, state := FiberState.TERM }
  { ts2 with tCur := ts2.tMain }

/-! Scheduler task queue, from scheduler.cpp and scheduler.h.  A task
carries an optional fiber, an optional callback and an optional thread
affinity; the default constructed thread id of the source is the none
affinity.  Fibers, callbacks and thread ids are numeric labels. -/

structure FiberAndThread where
  fiber : Option Nat := none
  cb : Option Nat := none
  threadid : Option Nat := none
  deriving DecidableEq, Repr

inductive FiberOrCb where
  | fiber (f : Nat)
  | cb (c : Nat)
  deriving DecidableEq, Repr

/-- The task structure schedulerNoLock builds from its argument. -/
def ftOf (fc : FiberOrCb) (thr : Option Nat) : FiberAndThread :=
  match fc with
  | .fiber f => { fiber := some f, threadid := thr }
  | .cb c => { cb := some c, threadid := thr }

/-- takeOneTask of scheduler.cpp: scan the queue front to back, skip a
task whose affinity is set and differs from the calling thread, remove
and return the first remaining one. -/
def takeOneTask (cur : Nat) (q : List FiberAndThread) :
    Option FiberAndThread × List FiberAndThread :=
  match q with
  | [] => (none, [])
  | t :: rest =>
    if t.threadid ≠ none ∧ t.threadid ≠ some cur then
      ((takeOneTask cur rest).1, t :: (takeOneTask cur rest).2)
    else (some t, rest)

/-- schedulerNoLock of scheduler.h: remember whether the queue was
empty, build the task, push it at the back when it holds a fiber or a
callback, and report whether a tickle is needed. -/
def schedulerNoLock (q : List FiberAndThread) (fc : FiberOrCb) (thr : Option Nat) :
    Bool × List FiberAndThread :=
  let need_tickle := q.isEmpty
  let ft := ftOf fc thr
  if ft.fiber.isSome || ft.cb.isSome then (need_tickle, q ++ [ft])
  else (need_tickle, q)

/-! Reactor shutdown, from Scheduler::stop in scheduler.cpp and
IOManager::run in iomanager.cpp.  One reactor worker is modelled: it is
blocked in an infinite epoll_wait, processing events, or exited from
the run loop.  The shared state holds the stopping flag, the eventfd
counter the overridden tickle writes, and whether some armed descriptor
has an event ready.  A blocked worker wakes only when the eventfd is
nonzero or an event is ready; a processing worker re-checks the
stopping flag at the top of the while loop and either blocks again or
exits.  Scheduler::stop stores the stopping flag and notifies the
condition variable, which the epoll loop never waits on, so its whole
effect here is the flag; IOManager::tickle writes the eventfd. -/

inductive WStatus where
  | blocked
  | processing
  | exited
  deriving DecidableEq, Repr

structure RSys where
  stopping : Bool
  eventfdVal : Nat
  ready : Bool
  worker : WStatus
  deriving DecidableEq, Repr

inductive RStep : RSys → RSys → Prop where
  | wake (s : RSys) (h : s.worker = WStatus.blocked)
      (hw : 0 < s.eventfdVal ∨ s.ready = true) :
      RStep s { s with worker := WStatus.processing, eventfdVal := 0 }
  | loopWait (s : RSys) (h : s.worker = WStatus.processing)
      (hns : s.stopping = false) :
      RStep s { s with worker := WStatus.blocked }
  | loopExit (s : RSys) (h : s.worker = WStatus.processing)
      (hs : s.stopping = true) :
      RStep s { s with worker := WStatus.exited }

inductive Reach : RSys → RSys → Prop where
  | refl (s : RSys) : Reach s s
  | step (s t u : RSys) : RStep s t → Reach t u → Reach s u

/-- Scheduler::stop as seen by the reactor loop: only the stopping flag
changes; the condition variable broadcast does not reach epoll_wait and
the eventfd is not written. -/
def schedStop (s : RSys) : RSys := { s with stopping := true }

/-- IOManager::tickle: write one word into the eventfd. -/
def ioTickle (s : RSys) : RSys := { s with eventfdVal := s.eventfdVal + 1 }

/-! Bit arithmetic helpers used by the codec proofs. -/

theorem lor_small_shift (a c i : Nat) (h : a < 2 ^ i) :
    a ||| (c <<< i) = a + c * 2 ^ i := by
  apply Nat.eq_of_testBit_eq
  intro j
  have hadd : a + c * 2 ^ i = 2 ^ i * c + a := by ring
  rw [Nat.testBit_lor, Nat.testBit_shiftLeft, hadd,
    Nat.testBit_mul_pow_two_add c h j]
  by_cases hj : j < i
  · have hge : ¬ (j ≥ i) := by omega
    simp [hj, hge]
  · have hge : j ≥ i := by omega
    have hbit : a.testBit j = false :=
      Nat.testBit_eq_false_of_lt
        (lt_of_lt_of_le h (Nat.pow_le_pow_right (by norm_num) hge))
    simp [hj, hge, hbit]

theorem xor_small_shift (a c i : Nat) (h : a < 2 ^ i) :
    a ^^^ (c <<< i) = a + c * 2 ^ i := by
  apply Nat.eq_of_testBit_eq
  intro j
  have hadd : a + c * 2 ^ i = 2 ^ i * c + a := by ring
  rw [Nat.testBit_xor, Nat.testBit_shiftLeft, hadd,
    Nat.testBit_mul_pow_two_add c h j]
  by_cases hj : j < i
  · have hge : ¬ (j ≥ i) := by omega
    simp [hj, hge]
  · have hge : j ≥ i := by omega
    have hbit : a.testBit j = false :=
      Nat.testBit_eq_false_of_lt
        (lt_of_lt_of_le h (Nat.pow_le_pow_right (by norm_num) hge))
    simp [hj, hge, hbit]

theorem xor_shiftRight_distrib (x y k : Nat) :
    (x ^^^ y) >>> k = (x >>> k) ^^^ (y >>> k) := by
  apply Nat.eq_of_testBit_eq
  intro j
  rw [Nat.testBit_xor, Nat.testBit_shiftRight, Nat.testBit_shiftRight,
    Nat.testBit_shiftRight, Nat.testBit_xor]

theorem land_two_pow_sub_one (x k : Nat) : x &&& (2 ^ k - 1) = x % 2 ^ k := by
  apply Nat.eq_of_testBit_eq
  intro j
  rw [Nat.testBit_land, Nat.testBit_two_pow_sub_one, Nat.testBit_mod_two_pow]
  cases hx : x.testBit j <;> by_cases hj : j < k <;> simp [hj, hx]

theorem length_toBytesLE (w v : Nat) : (toBytesLE w v).length = w := by
  induction w generalizing v with
  | zero => rfl
  | succ w ih => simp [toBytesLE, ih]

theorem toBytesLE_bytes_lt (w v : Nat) : ∀ b ∈ toBytesLE w v, b < 256 := by
  induction w generalizing v with
  | zero => intro b hb; simp [toBytesLE] at hb
  | succ w ih =>
    intro b hb
    simp only [toBytesLE, List.mem_cons] at hb
    rcases hb with hb | hb
    · omega
    · exact ih _ b hb

theorem fromBytesLE_toBytesLE (w v : Nat) (h : v < 256 ^ w) :
    fromBytesLE (toBytesLE w v) = v := by
  induction w generalizing v with
  | zero => simp [toBytesLE, fromBytesLE]; omega
  | succ w ih =>
    have hdiv : v / 256 < 256 ^ w := by
      rw [Nat.div_lt_iff_lt_mul (by norm_num)]
      calc v < 256 ^ (w + 1) := h
        _ = 256 ^ w * 256 := by ring
    simp only [toBytesLE, fromBytesLE, ih _ hdiv]
    omega

theorem fromBytesLE_lt (l : List Nat) (h : ∀ b ∈ l, b < 256) :
    fromBytesLE l < 256 ^ l.length := by
  induction l with
  | nil => simp [fromBytesLE]
  | cons b bs ih =>
    have hb : b < 256 := h b (by simp)
    have hbs : fromBytesLE bs < 256 ^ bs.length := ih (fun x hx => h x (by simp [hx]))
    simp only [fromBytesLE, List.length_cons, pow_succ]
    calc b + 256 * fromBytesLE bs < 256 + 256 * fromBytesLE bs := by omega
      _ = 256 * (fromBytesLE bs + 1) := by ring
      _ ≤ 256 * 256 ^ bs.length := by
          exact Nat.mul_le_mul_left 256 (by omega)
      _ = 256 ^ bs.length * 256 := by ring

theorem toBytesLE_fromBytesLE (l : List Nat) (h : ∀ b ∈ l, b < 256) :
    toBytesLE l.length (fromBytesLE l) = l := by
  induction l with
  | nil => rfl
  | cons b bs ih =>
    have hb : b < 256 := h b (by simp)
    have hmod : (b + 256 * fromBytesLE bs) % 256 = b := by omega
    have hdiv : (b + 256 * fromBytesLE bs) / 256 = fromBytesLE bs := by omega
    simp only [List.length_cons, toBytesLE, fromBytesLE, hmod, hdiv]
    exact congrArg (b :: ·) (ih (fun x hx => h x (by simp [hx])))

theorem byteswap_lt (w v : Nat) : byteswap w v < 256 ^ w := by
  have h := fromBytesLE_lt ((toBytesLE w v).reverse)
    (fun b hb => toBytesLE_bytes_lt w v b (List.mem_reverse.mp hb))
  rwa [List.length_reverse, length_toBytesLE] at h

theorem byteswap_byteswap (w v : Nat) (h : v < 256 ^ w) :
    byteswap w (byteswap w v) = v := by
  unfold byteswap
  have hlen : ((toBytesLE w v).reverse).length = w := by
    rw [List.length_reverse, length_toBytesLE]
  have hback : toBytesLE w (fromBytesLE ((toBytesLE w v).reverse)) =
      (toBytesLE w v).reverse := by
    have := toBytesLE_fromBytesLE ((toBytesLE w v).reverse)
      (fun b hb => toBytesLE_bytes_lt w v b (List.mem_reverse.mp hb))
    rwa [hlen] at this
  rw [hback, List.reverse_reverse, fromBytesLE_toBytesLE w v h]

theorem convertEndian_convertEndian (w v target : Nat) (hostBig : Bool)
    (h : v < 256 ^ w) :
    convertEndian w (convertEndian w v target hostBig) target hostBig = v := by
  unfold convertEndian
  by_cases h1 : w = 1
  · simp [h1]
  · by_cases h2 : (if hostBig then 1 else 0) = target
    · simp [h1, h2]
    · simp [h1, h2, byteswap_byteswap w v h]

theorem convertEndian_lt (w v target : Nat) (hostBig : Bool) (h : v < 256 ^ w) :
    convertEndian w v target hostBig < 256 ^ w := by
  unfold convertEndian
  by_cases h1 : w = 1
  · simpa [h1] using h
  · by_cases h2 : (if hostBig then 1 else 0) = target
    · simpa [h1, h2] using h
    · simpa [h1, h2] using byteswap_lt w v

theorem length_hostBytes (hostBig : Bool) (w v : Nat) :
    (hostBytes hostBig w v).length = w := by
  unfold hostBytes
  cases hostBig <;> simp [length_toBytesLE]

theorem hostFromBytes_hostBytes (hostBig : Bool) (w v : Nat) (h : v < 256 ^ w) :
    hostFromBytes hostBig (hostBytes hostBig w v) = v := by
  unfold hostBytes hostFromBytes
  cases hostBig <;>
    simp [List.reverse_reverse, fromBytesLE_toBytesLE w v h]

/-! Lemmas about the buffer primitives. -/

theorem addCapacity_position (ba : ByteArray) (n : Nat) :
    (ba.addCapacity n).position = ba.position := by
  unfold ByteArray.addCapacity
  dsimp only
  split
  · rfl
  · split <;> rfl

theorem addCapacity_size (ba : ByteArray) (n : Nat) :
    (ba.addCapacity n).size = ba.size := by
  unfold ByteArray.addCapacity
  dsimp only
  split
  · rfl
  · split <;> rfl

theorem addCapacity_baseSize (ba : ByteArray) (n : Nat) :
    (ba.addCapacity n).baseSize = ba.baseSize := by
  unfold ByteArray.addCapacity
  dsimp only
  split
  · rfl
  · split <;> rfl

theorem addCapacity_endian (ba : ByteArray) (n : Nat) :
    (ba.addCapacity n).endian = ba.endian := by
  unfold ByteArray.addCapacity
  dsimp only
  split
  · rfl
  · split <;> rfl

theorem addCapacity_hostBig (ba : ByteArray) (n : Nat) :
    (ba.addCapacity n).hostBig = ba.hostBig := by
  unfold ByteArray.addCapacity
  dsimp only
  split
  · rfl
  · split <;> rfl

theorem addCapacity_length (ba : ByteArray) (n : Nat) (hwf : ba.wf) :
    (ba.addCapacity n).data.length = (ba.addCapacity n).capacity := by
  unfold ByteArray.addCapacity
  dsimp only
  split
  · exact hwf.1
  · split
    · exact hwf.1
    · simp [List.length_append, List.length_replicate, hwf.1]

theorem addCapacity_capacity_le (ba : ByteArray) (n : Nat) :
    ba.capacity ≤ (ba.addCapacity n).capacity := by
  unfold ByteArray.addCapacity
  dsimp only
  split
  · exact le_refl _
  · split
    · exact le_refl _
    · simp

theorem addCapacity_capacity_ge (ba : ByteArray) (n : Nat) (hwf : ba.wf) :
    ba.position + n ≤ (ba.addCapacity n).capacity := by
  obtain ⟨hlen, hbase, hps, hsc⟩ := hwf
  unfold ByteArray.addCapacity ByteArray.getCapacity
  dsimp only
  split
  · omega
  · split
    · omega
    · dsimp only
      have hdm := Nat.div_add_mod (n - (ba.capacity - ba.position) + ba.baseSize - 1) ba.baseSize
      have hmlt : (n - (ba.capacity - ba.position) + ba.baseSize - 1) % ba.baseSize < ba.baseSize :=
        Nat.mod_lt _ hbase
      have hc : ba.baseSize * ((n - (ba.capacity - ba.position) + ba.baseSize - 1) / ba.baseSize) =
          (n - (ba.capacity - ba.position) + ba.baseSize - 1) / ba.baseSize * ba.baseSize :=
        Nat.mul_comm _ _
      omega

theorem addCapacity_wf (ba : ByteArray) (n : Nat) (hwf : ba.wf) :
    (ba.addCapacity n).wf := by
  refine ⟨addCapacity_length ba n hwf, ?_, ?_, ?_⟩
  · rw [addCapacity_baseSize]; exact hwf.2.1
  · rw [addCapacity_position, addCapacity_size]; exact hwf.2.2.1
  · rw [addCapacity_size]
    exact le_trans hwf.2.2.2 (addCapacity_capacity_le ba n)

theorem addCapacity_bytesAt (ba : ByteArray) (n q k : Nat)
    (hqk : q + k ≤ ba.data.length) :
    (ba.addCapacity n).bytesAt q k = ba.bytesAt q k := by
  unfold ByteArray.addCapacity
  dsimp only
  split
  · rfl
  · split
    · rfl
    · unfold ByteArray.bytesAt
      simp only
      rw [List.drop_append_of_le_length (by omega),
        List.take_append_of_le_length (by simp [List.length_drop]; omega)]

/-! Splice lemmas for the flat byte store. -/

theorem splice_self (d bs : List Nat) (p : Nat) (hp : p ≤ d.length) :
    ((d.take p ++ bs ++ d.drop (p + bs.length)).drop p).take bs.length = bs := by
  rw [List.append_assoc,
    List.drop_append_of_le_length (by rw [List.length_take]; omega),
    List.drop_take]
  simp only [Nat.sub_self, List.take_zero, List.nil_append]
  rw [List.take_append_of_le_length (le_refl _), List.take_length]

theorem splice_frame (d bs : List Nat) (p q k : Nat)
    (hqk : q + k ≤ p) (hp : p ≤ d.length) :
    ((d.take p ++ bs ++ d.drop (p + bs.length)).drop q).take k =
      (d.drop q).take k := by
  rw [List.append_assoc,
    List.drop_append_of_le_length (by rw [List.length_take]; omega),
    List.take_append_of_le_length (by rw [List.length_drop, List.length_take]; omega),
    List.drop_take, List.take_take]
  congr 1
  omega

theorem splice_length (d bs : List Nat) (p : Nat)
    (hp : p + bs.length ≤ d.length) :
    (d.take p ++ bs ++ d.drop (p + bs.length)).length = d.length := by
  simp [List.length_append, List.length_take, List.length_drop]
  omega

/-! write lemmas. -/

theorem write_position (ba : ByteArray) (bs : List Nat) :
    (ba.write bs).position = ba.position + bs.length := by
  unfold ByteArray.write
  split
  · next h =>
    rw [List.isEmpty_iff] at h
    simp [h]
  · simp [addCapacity_position]

theorem write_baseSize (ba : ByteArray) (bs : List Nat) :
    (ba.write bs).baseSize = ba.baseSize := by
  unfold ByteArray.write
  split
  · rfl
  · simp [addCapacity_baseSize]

theorem write_endian (ba : ByteArray) (bs : List Nat) :
    (ba.write bs).endian = ba.endian := by
  unfold ByteArray.write
  split
  · rfl
  · simp [addCapacity_endian]

theorem write_hostBig (ba : ByteArray) (bs : List Nat) :
    (ba.write bs).hostBig = ba.hostBig := by
  unfold ByteArray.write
  split
  · rfl
  · simp [addCapacity_hostBig]

theorem write_size (ba : ByteArray) (bs : List Nat) (hwf : ba.wf) :
    (ba.write bs).size =
      if ba.position + bs.length > ba.size then ba.position + bs.length
      else ba.size := by
  unfold ByteArray.write
  split
  · next h =>
    rw [List.isEmpty_iff] at h
    have hps := hwf.2.2.1
    simp [h]
    split <;> omega
  · simp [addCapacity_position, addCapacity_size]

theorem write_size_ge (ba : ByteArray) (bs : List Nat) (hwf : ba.wf) :
    ba.position + bs.length ≤ (ba.write bs).size := by
  rw [write_size ba bs hwf]
  have hps := hwf.2.2.1
  split <;> omega

theorem write_data_length (ba : ByteArray) (bs : List Nat) (hwf : ba.wf) :
    (ba.write bs).data.length = (ba.write bs).capacity := by
  unfold ByteArray.write
  split
  · exact hwf.1
  · simp only
    have h1 := addCapacity_length ba bs.length hwf
    have h2 := addCapacity_capacity_ge ba bs.length hwf
    have h3 := addCapacity_position ba bs.length
    rw [splice_length _ _ _ (by omega)]
    exact h1

theorem write_capacity_ge (ba : ByteArray) (bs : List Nat) (hwf : ba.wf) :
    ba.position + bs.length ≤ (ba.write bs).capacity := by
  unfold ByteArray.write
  split
  · next h =>
    rw [List.isEmpty_iff] at h
    have := hwf.2.2.1
    have := hwf.2.2.2
    simp [h]
    omega
  · simp only
    have h2 := addCapacity_capacity_ge ba bs.length hwf
    exact h2

theorem write_wf (ba : ByteArray) (bs : List Nat) (hwf : ba.wf) :
    (ba.write bs).wf := by
  refine ⟨write_data_length ba bs hwf, ?_, ?_, ?_⟩
  · rw [write_baseSize]; exact hwf.2.1
  · rw [write_position]
    exact write_size_ge ba bs hwf
  · rw [write_size ba bs hwf]
    have h1 := write_capacity_ge ba bs hwf
    have h2 : ba.capacity ≤ (ba.write bs).capacity := by
      unfold ByteArray.write
      split
      · exact le_refl _
      · simp only
        exact addCapacity_capacity_le ba bs.length
    have h3 := hwf.2.2.2
    split <;> omega

theorem write_content (ba : ByteArray) (bs : List Nat) (hwf : ba.wf) :
    (ba.write bs).bytesAt ba.position bs.length = bs := by
  unfold ByteArray.write
  split
  · next h =>
    rw [List.isEmpty_iff] at h
    simp [h, ByteArray.bytesAt]
  · simp only
    unfold ByteArray.bytesAt
    simp only
    have h1 := addCapacity_length ba bs.length hwf
    have h2 := addCapacity_capacity_ge ba bs.length hwf
    have h3 := addCapacity_position ba bs.length
    rw [h3]
    exact splice_self _ bs ba.position (by omega)

theorem write_frame (ba : ByteArray) (bs : List Nat) (q k : Nat) (hwf : ba.wf)
    (hqk : q + k ≤ ba.position) :
    (ba.write bs).bytesAt q k = ba.bytesAt q k := by
  unfold ByteArray.write
  split
  · rfl
  · simp only
    unfold ByteArray.bytesAt
    simp only
    have h1 := addCapacity_length ba bs.length hwf
    have h2 := addCapacity_capacity_ge ba bs.length hwf
    have h3 := addCapacity_position ba bs.length
    rw [h3]
    have h4 := splice_frame (ba.addCapacity bs.length).data bs ba.position q k hqk (by omega)
    rw [h4]
    have h5 := addCapacity_bytesAt ba bs.length q k
      (by have h6 := hwf.2.2.1; have h7 := hwf.2.2.2; rw [hwf.1]; omega)
    unfold ByteArray.bytesAt at h5
    exact h5

/-! read and setPosition lemmas. -/

theorem read_ok (ba : ByteArray) (n p : Nat) (l : List Nat) (_hwf : ba.wf)
    (hn : 0 < n) (hpos : ba.position = p) (hcont : ba.bytesAt p n = l)
    (hsz : p + n ≤ ba.size) :
    ba.read n = (.ok l, { ba with position := p + n, cur := (p + n) / ba.baseSize }) := by
  unfold ByteArray.read
  rw [if_neg (by omega)]
  rw [if_neg (by unfold ByteArray.getReadSize; omega)]
  simp only
  unfold ByteArray.bytesAt at hcont
  rw [hpos, hcont]

theorem setPosition_ok (ba : ByteArray) (v : Nat) (hv : v ≤ ba.capacity) :
    ba.setPosition v = .ok { ba with
      position := v
      size := if v > ba.size then v else ba.size
      cur := v / ba.baseSize } := by
  unfold ByteArray.setPosition
  rw [if_neg (by omega)]

theorem readFixed_ok (ba : ByteArray) (w x p : Nat) (hwf : ba.wf)
    (hw : 0 < w) (hpos : ba.position = p) (hsz : p + w ≤ ba.size)
    (hcont : ba.bytesAt p w = hostBytes ba.hostBig w x) (hx : x < 256 ^ w) :
    ba.readFixed w =
      (.ok (convertEndian w x ba.endian ba.hostBig),
       { ba with position := p + w, cur := (p + w) / ba.baseSize }) := by
  unfold ByteArray.readFixed
  rw [read_ok ba w p (hostBytes ba.hostBig w x) hwf hw hpos hcont (by omega)]
  simp only
  rw [hostFromBytes_hostBytes ba.hostBig w x hx]

theorem readFixed1_ok (ba : ByteArray) (b p : Nat) (hwf : ba.wf)
    (hpos : ba.position = p) (hsz : p + 1 ≤ ba.size)
    (hcont : ba.bytesAt p 1 = [b]) :
    ba.readFixed 1 =
      (.ok b, { ba with position := p + 1, cur := (p + 1) / ba.baseSize }) := by
  unfold ByteArray.readFixed
  rw [read_ok ba 1 p [b] hwf (by omega) hpos hcont (by omega)]
  simp only
  have hh : convertEndian 1 (hostFromBytes ba.hostBig [b]) ba.endian ba.hostBig = b := by
    unfold convertEndian hostFromBytes
    cases ba.hostBig <;> simp [fromBytesLE]
  rw [hh]

/-- Splitting one byte off a known byte range. -/
theorem bytesAt_cons (ba : ByteArray) (p b : Nat) (t : List Nat)
    (h : ba.bytesAt p (t.length + 1) = b :: t) :
    ba.bytesAt p 1 = [b] ∧ ba.bytesAt (p + 1) t.length = t := by
  unfold ByteArray.bytesAt at *
  constructor
  · have h1 : (ba.data.drop p).take 1 = ((ba.data.drop p).take (t.length + 1)).take 1 := by
      rw [List.take_take]
      congr 1
      omega
    rw [h1, h]
    rfl
  · have h2 : ba.data.drop (p + 1) = (ba.data.drop p).drop 1 := by
      rw [List.drop_drop]
    rw [h2]
    have h3 : List.drop 1 ((ba.data.drop p).take (t.length + 1)) =
        List.take t.length ((ba.data.drop p).drop 1) := by
      rw [List.drop_take]
      norm_num
    rw [← h3, h]
    rfl

/-! Varint correctness. -/

theorem varEncode_small (v : Nat) (h : v < 0x80) : varEncode v = [v] := by
  rw [varEncode]
  simp [Nat.not_le.mpr h]

theorem varEncode_big (v : Nat) (h : 0x80 ≤ v) :
    varEncode v = ((v &&& 0x7f) ||| 0x80) :: varEncode (v >>> 7) := by
  rw [varEncode]
  simp [h]

/-- The first byte emitted for a value with the continuation flag. -/
theorem varEncode_first_byte (v : Nat) :
    (v &&& 0x7f) ||| 0x80 = v % 128 + 128 := by
  have h1 : v &&& 0x7f = v % 128 := by
    have h : (0x7f : Nat) = 2 ^ 7 - 1 := by norm_num
    rw [h, land_two_pow_sub_one]
    norm_num
  have h2 : v % 128 ||| 0x80 = v % 128 ||| (1 <<< 7) := by norm_num [Nat.shiftLeft_eq]
  rw [h1, h2, lor_small_shift (v % 128) 1 7 (by omega)]
  norm_num

/-- Correctness of the varint read loop of readUint32 and readUint64
against the emit loop, generalized over the shift position and the
bits already accumulated. -/
theorem varDecodeLoop_ok (w : Nat) (v : Nat) :
    ∀ (i acc p : Nat) (ba : ByteArray), ba.wf → ba.position = p →
      ba.bytesAt p (varEncode v).length = varEncode v →
      p + (varEncode v).length ≤ ba.size →
      i < w → v < 2 ^ (w - i) → acc < 2 ^ i →
      varDecodeLoop w i acc ba =
        (.ok (acc + v * 2 ^ i),
         { ba with position := p + (varEncode v).length,
                   cur := (p + (varEncode v).length) / ba.baseSize }) := by
  induction v using Nat.strong_induction_on with
  | _ v IH =>
    intro i acc p ba hwf hpos hcont hsz hiw hv hacc
    by_cases hv128 : 0x80 ≤ v
    · -- continuation byte followed by the encoding of the high bits
      rw [varEncode_big v hv128] at hcont hsz ⊢
      simp only [List.length_cons] at hcont hsz ⊢
      obtain ⟨hc1, hcrest⟩ :=
        bytesAt_cons ba p ((v &&& 0x7f) ||| 0x80) (varEncode (v >>> 7)) hcont
      have hb0 := varEncode_first_byte v
      have hwi : 7 < w - i := by
        by_contra hcon
        have hle : (2 : Nat) ^ (w - i) ≤ 2 ^ 7 :=
          Nat.pow_le_pow_right (by norm_num) (by omega)
        have : v < 2 ^ 7 := lt_of_lt_of_le hv hle
        norm_num at this
        omega
      have hmod : v % 128 < 128 := Nat.mod_lt _ (by norm_num)
      have hpow7 : (2 : Nat) ^ (i + 7) = 2 ^ i * 128 := by
        rw [pow_add]; norm_num
      have hi7w : (2 : Nat) ^ (i + 7) ≤ 2 ^ w :=
        Nat.pow_le_pow_right (by norm_num) (by omega)
      rw [varDecodeLoop, dif_pos hiw,
        readFixed1_ok ba ((v &&& 0x7f) ||| 0x80) p hwf hpos (by omega) hc1]
      dsimp only
      rw [if_neg (by omega)]
      -- normalize the accumulated payload bits
      have hmask : ((v &&& 0x7f) ||| 0x80) &&& 0x7f = v % 128 := by
        rw [hb0]
        have h1 : (0x7f : Nat) = 2 ^ 7 - 1 := by norm_num
        rw [h1, land_two_pow_sub_one]
        omega
      have hshift : ((v % 128) <<< i) = v % 128 * 2 ^ i := Nat.shiftLeft_eq _ _
      have hsmall : v % 128 * 2 ^ i < 2 ^ w := by
        have h1 : v % 128 * 2 ^ i ≤ 127 * 2 ^ i := Nat.mul_le_mul_right _ (by omega)
        have h2 : (2 : Nat) ^ i * 128 = 128 * 2 ^ i := Nat.mul_comm _ _
        omega
      have haccv : acc ||| (((v &&& 0x7f) ||| 0x80) &&& 0x7f) <<< i % 2 ^ w =
          acc + v % 128 * 2 ^ i := by
        rw [hmask, hshift, Nat.mod_eq_of_lt hsmall,
          show v % 128 * 2 ^ i = (v % 128) <<< i from (Nat.shiftLeft_eq _ _).symm,
          lor_small_shift acc (v % 128) i hacc, Nat.shiftLeft_eq]
      rw [haccv]
      have hrec : v >>> 7 < v := by
        simp only [Nat.shiftRight_eq_div_pow]
        omega
      have hsh : v >>> 7 = v / 128 := by
        simp [Nat.shiftRight_eq_div_pow]
      have hvh : v >>> 7 < 2 ^ (w - (i + 7)) := by
        rw [hsh]
        rw [Nat.div_lt_iff_lt_mul (by norm_num)]
        have hexp : (2 : Nat) ^ (w - i) = 2 ^ (w - (i + 7)) * 128 := by
          have h1 : w - i = (w - (i + 7)) + 7 := by omega
          rw [h1, pow_add]
          norm_num
        rw [← hexp]
        exact hv
      have hacc7 : acc + v % 128 * 2 ^ i < 2 ^ (i + 7) := by
        have h1 : v % 128 * 2 ^ i ≤ 127 * 2 ^ i := Nat.mul_le_mul_right _ (by omega)
        have h2 : (2 : Nat) ^ (i + 7) = 2 ^ i * 128 := hpow7
        have h3 : (2 : Nat) ^ i * 128 = 128 * 2 ^ i := Nat.mul_comm _ _
        omega
      have hwfs : ({ ba with position := p + 1, cur := (p + 1) / ba.baseSize } : ByteArray).wf := by
        obtain ⟨a1, a2, a3, a4⟩ := hwf
        refine ⟨a1, a2, ?_, a4⟩
        show p + 1 ≤ ba.size
        omega
      have hstep := IH (v >>> 7) hrec (i + 7) (acc + v % 128 * 2 ^ i) (p + 1)
        { ba with position := p + 1, cur := (p + 1) / ba.baseSize }
        hwfs
        rfl
        (by
          show ByteArray.bytesAt _ (p + 1) _ = _
          unfold ByteArray.bytesAt at hcrest ⊢
          exact hcrest)
        (by
          show p + 1 + (varEncode (v >>> 7)).length ≤ ba.size
          omega)
        (by omega) hvh hacc7
      rw [hstep]
      have hval : acc + v % 128 * 2 ^ i + v >>> 7 * 2 ^ (i + 7) = acc + v * 2 ^ i := by
        rw [hsh, hpow7]
        have hkey : acc + v % 128 * 2 ^ i + v / 128 * (2 ^ i * 128) =
            acc + (128 * (v / 128) + v % 128) * 2 ^ i := by ring
        rw [hkey, Nat.div_add_mod]
      rw [hval]
      have harith : p + 1 + (varEncode (v >>> 7)).length =
          p + ((varEncode (v >>> 7)).length + 1) := by omega
      rw [harith]
    · -- final byte without the continuation flag
      have hvlt : v < 0x80 := by omega
      rw [varEncode_small v hvlt] at hcont hsz ⊢
      simp only [List.length_cons, List.length_nil] at hcont hsz ⊢
      rw [varDecodeLoop, dif_pos hiw,
        readFixed1_ok ba v p hwf hpos (by omega) hcont]
      dsimp only
      rw [if_pos hvlt]
      have hshift : v <<< i = v * 2 ^ i := Nat.shiftLeft_eq _ _
      have hsmall : v * 2 ^ i < 2 ^ w := by
        have hexp : (2 : Nat) ^ w = 2 ^ (w - i) * 2 ^ i := by
          rw [← pow_add]
          congr 1
          omega
        rw [hexp]
        exact (Nat.mul_lt_mul_right (Nat.pos_pow_of_pos i (by norm_num))).mpr hv
      rw [hshift, Nat.mod_eq_of_lt hsmall,
        show v * 2 ^ i = v <<< i from (Nat.shiftLeft_eq _ _).symm,
        lor_small_shift acc v i hacc, Nat.shiftLeft_eq]

/-- Writing a varint and reading it back from the written position. -/
theorem varint_write_read (w v : Nat) (ba : ByteArray) (hwf : ba.wf)
    (hw : 0 < w) (hv : v < 2 ^ w) :
    ∃ ba' s, (ba.write (varEncode v)).setPosition ba.position = .ok ba' ∧
      varDecodeLoop w 0 0 ba' = (.ok v, s) := by
  set s1 := ba.write (varEncode v) with hs1
  have hwf1 : s1.wf := write_wf ba (varEncode v) hwf
  have hp1 : s1.position = ba.position + (varEncode v).length :=
    write_position ba (varEncode v)
  have hsg : ba.position + (varEncode v).length ≤ s1.size :=
    write_size_ge ba (varEncode v) hwf
  have hcap : ba.position ≤ s1.capacity := by
    have := hwf1.2.2.2
    have := hwf1.2.2.1
    omega
  have hset := setPosition_ok s1 ba.position hcap
  rw [if_neg (by omega)] at hset
  have hcont : s1.bytesAt ba.position (varEncode v).length = varEncode v :=
    write_content ba (varEncode v) hwf
  have hwfs : ({ s1 with position := ba.position, cur := ba.position / s1.baseSize } : ByteArray).wf := by
    obtain ⟨a1, a2, a3, a4⟩ := hwf1
    refine ⟨a1, a2, ?_, a4⟩
    show ba.position ≤ s1.size
    omega
  have hloop := varDecodeLoop_ok w v 0 0 ba.position
    { s1 with position := ba.position, cur := ba.position / s1.baseSize }
    hwfs
    rfl
    (by
      show ByteArray.bytesAt _ ba.position _ = _
      unfold ByteArray.bytesAt at hcont ⊢
      exact hcont)
    (by
      show ba.position + (varEncode v).length ≤ s1.size
      omega)
    hw
    (by simpa using hv)
    (by norm_num)
  have hval : 0 + v * 2 ^ 0 = v := by simp
  rw [hval] at hloop
  exact ⟨_, _, hset, hloop⟩

/-! Zigzag correctness. -/

theorem encodeZigzag32_lt (v : Int) : EncodeZigzag32 v < 2 ^ 32 := by
  unfold EncodeZigzag32
  by_cases hneg : v < 0
  · rw [if_pos hneg]
    apply Nat.xor_lt_two_pow
    · exact Nat.mod_lt _ (by norm_num)
    · unfold toUInt32Nat
      omega
  · rw [if_neg hneg]
    have h0 : toUInt32Nat 0 = 0 := by decide
    rw [h0, Nat.xor_zero]
    exact Nat.mod_lt _ (by norm_num)

theorem encodeZigzag64_lt (v : Int) : EncodeZigzag64 v < 2 ^ 64 := by
  unfold EncodeZigzag64
  by_cases hneg : v < 0
  · rw [if_pos hneg]
    apply Nat.xor_lt_two_pow
    · exact Nat.mod_lt _ (by norm_num)
    · unfold toUInt64Nat
      omega
  · rw [if_neg hneg]
    have h0 : toUInt64Nat 0 = 0 := by decide
    rw [h0, Nat.xor_zero]
    exact Nat.mod_lt _ (by norm_num)

theorem decode_encode_zigzag32 (v : Int) (h1 : -(2 ^ 31) ≤ v) (h2 : v < 2 ^ 31) :
    DecodeZigzag32 (EncodeZigzag32 v) = v := by
  unfold EncodeZigzag32 DecodeZigzag32
  by_cases hneg : v < 0
  · rw [if_pos hneg]
    have ht : (toUInt32Nat v : Int) = v + 2 ^ 32 := by
      unfold toUInt32Nat
      omega
    set t := toUInt32Nat v with htdef
    have htlo : 2 ^ 31 ≤ t := by omega
    have hthi : t < 2 ^ 32 := by omega
    have hm1 : toUInt32Nat (-1) = 2 ^ 32 - 1 := by decide
    rw [hm1]
    have hsh : t <<< 1 = t * 2 := by
      simp [Nat.shiftLeft_eq]
    have hA : (t <<< 1) % 2 ^ 32 = t * 2 - 2 ^ 32 := by
      rw [hsh]
      omega
    rw [hA]
    have hAeven : (t * 2 - 2 ^ 32) % 2 = 0 := by omega
    have hu0 : ((t * 2 - 2 ^ 32) ^^^ (2 ^ 32 - 1)).testBit 0 = true := by
      rw [Nat.testBit_xor, Nat.testBit_two_pow_sub_one, Nat.testBit_zero]
      have hd1 : decide ((t * 2 - 2 ^ 32) % 2 = 1) = false := by
        rw [decide_eq_false_iff_not]
        omega
      have hd2 : decide ((0 : Nat) < 32) = true := by decide
      rw [hd1, hd2]
      rfl
    have huodd : ((t * 2 - 2 ^ 32) ^^^ (2 ^ 32 - 1)) % 2 = 1 := by
      rw [Nat.testBit_zero] at hu0
      simpa using hu0
    have huand : ((t * 2 - 2 ^ 32) ^^^ (2 ^ 32 - 1)) &&& 1 = 1 := by
      rw [Nat.and_one_is_mod, huodd]
    rw [huand]
    have hmconc : ((2 : Nat) ^ 32 - 1) ^^^ 1 = 2 ^ 32 - 2 := by decide
    have hmask : ((((2 : Nat) ^ 32 - 1) ^^^ 1) + 1) % 2 ^ 32 = 2 ^ 32 - 1 := by
      rw [hmconc]
      omega
    rw [hmask]
    have hush : ((t * 2 - 2 ^ 32) ^^^ (2 ^ 32 - 1)) >>> 1 =
        ((t * 2 - 2 ^ 32) >>> 1) ^^^ ((2 ^ 32 - 1) >>> 1) :=
      xor_shiftRight_distrib _ _ 1
    have hA1 : (t * 2 - 2 ^ 32) >>> 1 = t - 2 ^ 31 := by
      rw [Nat.shiftRight_eq_div_pow]
      omega
    have hM1 : ((2 : Nat) ^ 32 - 1) >>> 1 = 2 ^ 31 - 1 := by decide
    have hMx : ((2 : Nat) ^ 31 - 1) ^^^ (2 ^ 32 - 1) = 2 ^ 31 := by decide
    rw [hush, hA1, hM1, Nat.xor_assoc, hMx]
    have hxs := xor_small_shift (t - 2 ^ 31) 1 31 (by omega)
    have h31 : (1 : Nat) <<< 31 = 2 ^ 31 := by norm_num [Nat.shiftLeft_eq]
    rw [h31] at hxs
    rw [hxs]
    unfold toSigned
    rw [if_neg (by omega)]
    omega
  · rw [if_neg hneg]
    have h0 : toUInt32Nat 0 = 0 := by decide
    rw [h0, Nat.xor_zero]
    have ht : (toUInt32Nat v : Int) = v := by
      unfold toUInt32Nat
      omega
    set t := toUInt32Nat v with htdef
    have htlt : t < 2 ^ 31 := by omega
    have hsh : t <<< 1 = t * 2 := by
      simp [Nat.shiftLeft_eq]
    have hmod : (t <<< 1) % 2 ^ 32 = t * 2 := by
      rw [hsh]
      exact Nat.mod_eq_of_lt (by omega)
    rw [hmod]
    have hdshift : (t * 2) >>> 1 = t := by
      rw [Nat.shiftRight_eq_div_pow]
      omega
    have hand : (t * 2) &&& 1 = 0 := by
      rw [Nat.and_one_is_mod]
      omega
    rw [hdshift, hand]
    have hmask : ((((2 : Nat) ^ 32 - 1) ^^^ 0) + 1) % 2 ^ 32 = 0 := by
      rw [Nat.xor_zero]
      norm_num
    rw [hmask, Nat.xor_zero]
    unfold toSigned
    rw [if_pos (by omega)]
    omega

theorem decode_encode_zigzag64 (v : Int) (h1 : -(2 ^ 63) ≤ v) (h2 : v < 2 ^ 63) :
    DecodeZigzag64 (EncodeZigzag64 v) = v := by
  unfold EncodeZigzag64 DecodeZigzag64
  by_cases hneg : v < 0
  · rw [if_pos hneg]
    have ht : (toUInt64Nat v : Int) = v + 2 ^ 64 := by
      unfold toUInt64Nat
      omega
    set t := toUInt64Nat v with htdef
    have htlo : 2 ^ 63 ≤ t := by omega
    have hthi : t < 2 ^ 64 := by omega
    have hm1 : toUInt64Nat (-1) = 2 ^ 64 - 1 := by decide
    rw [hm1]
    have hsh : t <<< 1 = t * 2 := by
      simp [Nat.shiftLeft_eq]
    have hA : (t <<< 1) % 2 ^ 64 = t * 2 - 2 ^ 64 := by
      rw [hsh]
      omega
    rw [hA]
    have hAeven : (t * 2 - 2 ^ 64) % 2 = 0 := by omega
    have hu0 : ((t * 2 - 2 ^ 64) ^^^ (2 ^ 64 - 1)).testBit 0 = true := by
      rw [Nat.testBit_xor, Nat.testBit_two_pow_sub_one, Nat.testBit_zero]
      have hd1 : decide ((t * 2 - 2 ^ 64) % 2 = 1) = false := by
        rw [decide_eq_false_iff_not]
        omega
      have hd2 : decide ((0 : Nat) < 64) = true := by decide
      rw [hd1, hd2]
      rfl
    have huodd : ((t * 2 - 2 ^ 64) ^^^ (2 ^ 64 - 1)) % 2 = 1 := by
      rw [Nat.testBit_zero] at hu0
      simpa using hu0
    have huand : ((t * 2 - 2 ^ 64) ^^^ (2 ^ 64 - 1)) &&& 1 = 1 := by
      rw [Nat.and_one_is_mod, huodd]
    rw [huand]
    have hmconc : ((2 : Nat) ^ 64 - 1) ^^^ 1 = 2 ^ 64 - 2 := by decide
    have hmask : ((((2 : Nat) ^ 64 - 1) ^^^ 1) + 1) % 2 ^ 64 = 2 ^ 64 - 1 := by
      rw [hmconc]
      omega
    rw [hmask]
    have hush : ((t * 2 - 2 ^ 64) ^^^ (2 ^ 64 - 1)) >>> 1 =
        ((t * 2 - 2 ^ 64) >>> 1) ^^^ ((2 ^ 64 - 1) >>> 1) :=
      xor_shiftRight_distrib _ _ 1
    have hA1 : (t * 2 - 2 ^ 64) >>> 1 = t - 2 ^ 63 := by
      rw [Nat.shiftRight_eq_div_pow]
      omega
    have hM1 : ((2 : Nat) ^ 64 - 1) >>> 1 = 2 ^ 63 - 1 := by decide
    have hMx : ((2 : Nat) ^ 63 - 1) ^^^ (2 ^ 64 - 1) = 2 ^ 63 := by decide
    rw [hush, hA1, hM1, Nat.xor_assoc, hMx]
    have hxs := xor_small_shift (t - 2 ^ 63) 1 63 (by omega)
    have h63 : (1 : Nat) <<< 63 = 2 ^ 63 := by norm_num [Nat.shiftLeft_eq]
    rw [h63] at hxs
    rw [hxs]
    unfold toSigned
    rw [if_neg (by omega)]
    omega
  · rw [if_neg hneg]
    have h0 : toUInt64Nat 0 = 0 := by decide
    rw [h0, Nat.xor_zero]
    have ht : (toUInt64Nat v : Int) = v := by
      unfold toUInt64Nat
      omega
    set t := toUInt64Nat v with htdef
    have htlt : t < 2 ^ 63 := by omega
    have hsh : t <<< 1 = t * 2 := by
      simp [Nat.shiftLeft_eq]
    have hmod : (t <<< 1) % 2 ^ 64 = t * 2 := by
      rw [hsh]
      exact Nat.mod_eq_of_lt (by omega)
    rw [hmod]
    have hdshift : (t * 2) >>> 1 = t := by
      rw [Nat.shiftRight_eq_div_pow]
      omega
    have hand : (t * 2) &&& 1 = 0 := by
      rw [Nat.and_one_is_mod]
      omega
    rw [hdshift, hand]
    have hmask : ((((2 : Nat) ^ 64 - 1) ^^^ 0) + 1) % 2 ^ 64 = 0 := by
      rw [Nat.xor_zero]
      norm_num
    rw [hmask, Nat.xor_zero]
    unfold toSigned
    rw [if_pos (by omega)]
    omega

/-! Composite write then read lemmas. -/

theorem fixed_write_read (w v : Nat) (ba : ByteArray) (hwf : ba.wf)
    (hw : 0 < w) (hv : v < 256 ^ w) :
    ∃ ba' s, (ba.writeFixed w v).setPosition ba.position = .ok ba' ∧
      ba'.readFixed w = (.ok v, s) := by
  have hbllen : (hostBytes ba.hostBig w (convertEndian w v ba.endian ba.hostBig)).length = w :=
    length_hostBytes _ _ _
  have hwf1 : (ba.writeFixed w v).wf := by
    unfold ByteArray.writeFixed
    exact write_wf ba _ hwf
  have hp1 : (ba.writeFixed w v).position = ba.position + w := by
    unfold ByteArray.writeFixed
    rw [write_position, hbllen]
  have hsg : ba.position + w ≤ (ba.writeFixed w v).size := by
    unfold ByteArray.writeFixed
    have h := write_size_ge ba (hostBytes ba.hostBig w (convertEndian w v ba.endian ba.hostBig)) hwf
    rw [hbllen] at h
    exact h
  have hcap : ba.position ≤ (ba.writeFixed w v).capacity := by
    have h3 := hwf1.2.2.1
    have h4 := hwf1.2.2.2
    omega
  have hset := setPosition_ok (ba.writeFixed w v) ba.position hcap
  rw [if_neg (by omega)] at hset
  have hcont : (ba.writeFixed w v).bytesAt ba.position w =
      hostBytes ba.hostBig w (convertEndian w v ba.endian ba.hostBig) := by
    unfold ByteArray.writeFixed
    have h := write_content ba (hostBytes ba.hostBig w (convertEndian w v ba.endian ba.hostBig)) hwf
    rw [hbllen] at h
    exact h
  have hhb : (ba.writeFixed w v).hostBig = ba.hostBig := by
    unfold ByteArray.writeFixed
    exact write_hostBig ba _
  have hend : (ba.writeFixed w v).endian = ba.endian := by
    unfold ByteArray.writeFixed
    exact write_endian ba _
  have hwfs : ({ ba.writeFixed w v with position := ba.position, cur := ba.position / (ba.writeFixed w v).baseSize } : ByteArray).wf := by
    obtain ⟨a1, a2, a3, a4⟩ := hwf1
    refine ⟨a1, a2, ?_, a4⟩
    show ba.position ≤ (ba.writeFixed w v).size
    omega
  have hrd := readFixed_ok
    { ba.writeFixed w v with position := ba.position, cur := ba.position / (ba.writeFixed w v).baseSize }
    w (convertEndian w v ba.endian ba.hostBig) ba.position hwfs hw rfl
    (by
      show ba.position + w ≤ (ba.writeFixed w v).size
      omega)
    (by
      show (ba.writeFixed w v).bytesAt ba.position w =
        hostBytes (ba.writeFixed w v).hostBig w (convertEndian w v ba.endian ba.hostBig)
      rw [hhb]
      exact hcont)
    (convertEndian_lt w v ba.endian ba.hostBig hv)
  have hre : ({ ba.writeFixed w v with position := ba.position, cur := ba.position / (ba.writeFixed w v).baseSize } : ByteArray).endian = ba.endian := hend
  have hrh : ({ ba.writeFixed w v with position := ba.position, cur := ba.position / (ba.writeFixed w v).baseSize } : ByteArray).hostBig = ba.hostBig := hhb
  rw [hre, hrh, convertEndian_convertEndian w v ba.endian ba.hostBig hv] at hrd
  exact ⟨_, _, hset, hrd⟩

/-- Casting a bounded signed value through its unsigned image and the
two complement reinterpretation is the identity. -/
theorem toSigned_toUInt (w : Nat) (v : Int) (hw : 0 < w)
    (h1 : -(2 ^ (8 * w - 1) : Int) ≤ v) (h2 : v < 2 ^ (8 * w - 1)) :
    toSigned w ((v % ((2 : Int) ^ (8 * w))).toNat) = v := by
  have hexp : ((2 : Int) ^ (8 * w)) = 2 ^ ((8 * w - 1) + 1) := by
    congr 1
    omega
  have hpI : ((2 : Int) ^ (8 * w)) = 2 ^ (8 * w - 1) * 2 := by
    rw [hexp, pow_succ]
  have hcast : (((2 : Nat) ^ (8 * w - 1) : Nat) : Int) = (2 : Int) ^ (8 * w - 1) := by
    push_cast
    ring
  unfold toSigned
  by_cases hv : 0 ≤ v
  · have hmod : v % ((2 : Int) ^ (8 * w)) = v := Int.emod_eq_of_lt hv (by omega)
    rw [hmod, if_pos (by omega)]
    omega
  · have h5 : (v + ((2 : Int) ^ (8 * w)) * 1) % ((2 : Int) ^ (8 * w)) =
        v % ((2 : Int) ^ (8 * w)) := Int.add_mul_emod_self_left v _ 1
    rw [mul_one] at h5
    have hmod : v % ((2 : Int) ^ (8 * w)) = v + (2 : Int) ^ (8 * w) := by
      rw [← h5]
      exact Int.emod_eq_of_lt (by omega) (by omega)
    rw [hmod, if_neg (by omega)]
    omega

theorem fixedI_write_read (w : Nat) (v : Int) (ba : ByteArray) (hwf : ba.wf)
    (hw : 0 < w) (h1 : -(2 ^ (8 * w - 1) : Int) ≤ v) (h2 : v < 2 ^ (8 * w - 1)) :
    ∃ ba' s, (ba.writeFixedI w v).setPosition ba.position = .ok ba' ∧
      ba'.readFixedI w = (.ok v, s) := by
  have hpow : (256 : Nat) ^ w = 2 ^ (8 * w) := by
    rw [show (256 : Nat) = 2 ^ 8 from rfl, ← pow_mul]
  have hcastP : (((2 : Nat) ^ (8 * w) : Nat) : Int) = (2 : Int) ^ (8 * w) := by
    push_cast
    ring
  have hnb : ((v % ((2 : Int) ^ (8 * w))).toNat) < 256 ^ w := by
    have ha := Int.emod_nonneg v (show ((2 : Int) ^ (8 * w)) ≠ 0 by positivity)
    have hb := Int.emod_lt_of_pos v (show (0 : Int) < 2 ^ (8 * w) by positivity)
    rw [hpow]
    omega
  obtain ⟨ba', s, hset, hrd⟩ :=
    fixed_write_read w ((v % ((2 : Int) ^ (8 * w))).toNat) ba hwf hw hnb
  refine ⟨ba', s, ?_, ?_⟩
  · unfold ByteArray.writeFixedI
    exact hset
  · unfold ByteArray.readFixedI
    rw [hrd]
    dsimp only
    rw [toSigned_toUInt w v hw h1 h2]

/-- Read side of the fixed prefix string format, stated against the
byte ranges present in the buffer. -/
theorem readStringFixed_ok (r : ByteArray) (w p : Nat) (s : List Nat) (hwf : r.wf)
    (hw : 0 < w) (hpos : r.position = p) (hlen : s.length < 256 ^ w)
    (hcont1 : r.bytesAt p w = hostBytes r.hostBig w (convertEndian w s.length r.endian r.hostBig))
    (hcont2 : r.bytesAt (p + w) s.length = s)
    (hsz : p + w + s.length ≤ r.size) :
    ∃ st, r.readStringFixed w = (.ok s, st) := by
  unfold ByteArray.readStringFixed
  have hrd := readFixed_ok r w (convertEndian w s.length r.endian r.hostBig) p hwf hw hpos
    (by omega) hcont1 (convertEndian_lt _ _ _ _ hlen)
  rw [convertEndian_convertEndian w s.length r.endian r.hostBig hlen] at hrd
  rw [hrd]
  dsimp only
  by_cases hz : s.length = 0
  · rw [if_pos hz]
    have hs : s = [] := List.length_eq_zero.mp hz
    subst hs
    exact ⟨_, rfl⟩
  · rw [if_neg hz]
    have hread := read_ok
      { r with position := p + w, cur := (p + w) / r.baseSize }
      s.length (p + w) s
      (by
        obtain ⟨a1, a2, a3, a4⟩ := hwf
        refine ⟨a1, a2, ?_, a4⟩
        show p + w ≤ r.size
        omega)
      (by omega) rfl
      (by
        show ByteArray.bytesAt _ (p + w) s.length = s
        unfold ByteArray.bytesAt at hcont2 ⊢
        exact hcont2)
      (by
        show p + w + s.length ≤ r.size
        omega)
    rw [hread]
    exact ⟨_, rfl⟩

/-- Read side of the varint prefix string format. -/
theorem readStringVint_ok (r : ByteArray) (p : Nat) (s : List Nat) (hwf : r.wf)
    (hpos : r.position = p) (hlen : s.length < 2 ^ 64)
    (hcont1 : r.bytesAt p (varEncode s.length).length = varEncode s.length)
    (hcont2 : r.bytesAt (p + (varEncode s.length).length) s.length = s)
    (hsz : p + (varEncode s.length).length + s.length ≤ r.size) :
    ∃ st, r.readStringVint = (.ok s, st) := by
  unfold ByteArray.readStringVint ByteArray.readUint64
  have hloop := varDecodeLoop_ok 64 s.length 0 0 p r hwf hpos hcont1 (by omega)
    (by norm_num) (by simpa using hlen) (by norm_num)
  have hval : 0 + s.length * 2 ^ 0 = s.length := by simp
  rw [hval] at hloop
  rw [hloop]
  dsimp only
  by_cases hz : s.length = 0
  · rw [if_pos hz]
    have hs : s = [] := List.length_eq_zero.mp hz
    subst hs
    exact ⟨_, rfl⟩
  · rw [if_neg hz]
    have hread := read_ok
      { r with position := p + (varEncode s.length).length, cur := (p + (varEncode s.length).length) / r.baseSize }
      s.length (p + (varEncode s.length).length) s
      (by
        obtain ⟨a1, a2, a3, a4⟩ := hwf
        refine ⟨a1, a2, ?_, a4⟩
        show p + (varEncode s.length).length ≤ r.size
        omega)
      (by omega) rfl
      (by
        show ByteArray.bytesAt _ (p + (varEncode s.length).length) s.length = s
        unfold ByteArray.bytesAt at hcont2 ⊢
        exact hcont2)
      (by
        show p + (varEncode s.length).length + s.length ≤ r.size
        omega)
    rw [hread]
    exact ⟨_, rfl⟩

/-- Write side of the fixed prefix string format: after the write and
a seek back to the start position, the buffer holds the endian image
of the truncated length followed by the raw body. -/
theorem writeStringFixed_props (w : Nat) (s : List Nat) (ba : ByteArray)
    (hwf : ba.wf) (hw : 0 < w) :
    ∃ ba', (ba.writeStringFixed w s).setPosition ba.position = .ok ba' ∧
      ba'.wf ∧ ba'.position = ba.position ∧
      ba'.endian = ba.endian ∧ ba'.hostBig = ba.hostBig ∧
      ba'.bytesAt ba.position w =
        hostBytes ba.hostBig w (convertEndian w s.length ba.endian ba.hostBig) ∧
      ba'.bytesAt (ba.position + w) s.length = s ∧
      ba.position + w + s.length ≤ ba'.size := by
  have hbllen : (hostBytes ba.hostBig w (convertEndian w s.length ba.endian ba.hostBig)).length = w :=
    length_hostBytes _ _ _
  have hwf1 : (ba.writeFixed w s.length).wf := by
    unfold ByteArray.writeFixed
    exact write_wf ba _ hwf
  have hp1 : (ba.writeFixed w s.length).position = ba.position + w := by
    unfold ByteArray.writeFixed
    rw [write_position, hbllen]
  have hsg1 : ba.position + w ≤ (ba.writeFixed w s.length).size := by
    unfold ByteArray.writeFixed
    have h := write_size_ge ba (hostBytes ba.hostBig w (convertEndian w s.length ba.endian ba.hostBig)) hwf
    rw [hbllen] at h
    exact h
  have hcont1 : (ba.writeFixed w s.length).bytesAt ba.position w =
      hostBytes ba.hostBig w (convertEndian w s.length ba.endian ba.hostBig) := by
    unfold ByteArray.writeFixed
    have h := write_content ba (hostBytes ba.hostBig w (convertEndian w s.length ba.endian ba.hostBig)) hwf
    rw [hbllen] at h
    exact h
  have hend1 : (ba.writeFixed w s.length).endian = ba.endian := by
    unfold ByteArray.writeFixed
    exact write_endian ba _
  have hhb1 : (ba.writeFixed w s.length).hostBig = ba.hostBig := by
    unfold ByteArray.writeFixed
    exact write_hostBig ba _
  have hwf2 : ((ba.writeFixed w s.length).write s).wf := write_wf _ s hwf1
  have hp2 : ((ba.writeFixed w s.length).write s).position = ba.position + w + s.length := by
    rw [write_position, hp1]
  have hsz2 : ba.position + w + s.length ≤ ((ba.writeFixed w s.length).write s).size := by
    have h := write_size_ge (ba.writeFixed w s.length) s hwf1
    rw [hp1] at h
    exact h
  have hcont2 : ((ba.writeFixed w s.length).write s).bytesAt (ba.position + w) s.length = s := by
    have h := write_content (ba.writeFixed w s.length) s hwf1
    rw [hp1] at h
    exact h
  have hframe : ((ba.writeFixed w s.length).write s).bytesAt ba.position w =
      (ba.writeFixed w s.length).bytesAt ba.position w :=
    write_frame (ba.writeFixed w s.length) s ba.position w hwf1 (by omega)
  have hcap2 : ba.position ≤ ((ba.writeFixed w s.length).write s).capacity := by
    have h3 := hwf2.2.2.1
    have h4 := hwf2.2.2.2
    omega
  have hset := setPosition_ok ((ba.writeFixed w s.length).write s) ba.position hcap2
  rw [if_neg (by omega)] at hset
  refine ⟨{ (ba.writeFixed w s.length).write s with position := ba.position, size := ((ba.writeFixed w s.length).write s).size, cur := ba.position / ((ba.writeFixed w s.length).write s).baseSize }, hset, ?_, ?_, ?_, ?_, ?_, ?_, ?_⟩
  · obtain ⟨a1, a2, a3, a4⟩ := hwf2
    refine ⟨a1, a2, ?_, a4⟩
    show ba.position ≤ ((ba.writeFixed w s.length).write s).size
    omega
  · rfl
  · show ((ba.writeFixed w s.length).write s).endian = ba.endian
    rw [write_endian]
    exact hend1
  · show ((ba.writeFixed w s.length).write s).hostBig = ba.hostBig
    rw [write_hostBig]
    exact hhb1
  · show ((ba.writeFixed w s.length).write s).bytesAt ba.position w = _
    rw [hframe]
    exact hcont1
  · show ((ba.writeFixed w s.length).write s).bytesAt (ba.position + w) s.length = s
    exact hcont2
  · show ba.position + w + s.length ≤ ((ba.writeFixed w s.length).write s).size
    exact hsz2

/-- Write side of the varint prefix string format. -/
theorem writeStringVint_props (s : List Nat) (ba : ByteArray) (hwf : ba.wf) :
    ∃ ba', (ba.writeStringVint s).setPosition ba.position = .ok ba' ∧
      ba'.wf ∧ ba'.position = ba.position ∧
      ba'.bytesAt ba.position (varEncode s.length).length = varEncode s.length ∧
      ba'.bytesAt (ba.position + (varEncode s.length).length) s.length = s ∧
      ba.position + (varEncode s.length).length + s.length ≤ ba'.size := by
  have hwf1 : (ba.write (varEncode s.length)).wf := write_wf ba _ hwf
  have hp1 : (ba.write (varEncode s.length)).position =
      ba.position + (varEncode s.length).length := write_position ba _
  have hcont1 : (ba.write (varEncode s.length)).bytesAt ba.position
      (varEncode s.length).length = varEncode s.length := write_content ba _ hwf
  have hwf2 : ((ba.write (varEncode s.length)).write s).wf := write_wf _ s hwf1
  have hsz2 : ba.position + (varEncode s.length).length + s.length ≤
      ((ba.write (varEncode s.length)).write s).size := by
    have h := write_size_ge (ba.write (varEncode s.length)) s hwf1
    rw [hp1] at h
    exact h
  have hcont2 : ((ba.write (varEncode s.length)).write s).bytesAt
      (ba.position + (varEncode s.length).length) s.length = s := by
    have h := write_content (ba.write (varEncode s.length)) s hwf1
    rw [hp1] at h
    exact h
  have hframe : ((ba.write (varEncode s.length)).write s).bytesAt ba.position
      (varEncode s.length).length =
      (ba.write (varEncode s.length)).bytesAt ba.position (varEncode s.length).length :=
    write_frame (ba.write (varEncode s.length)) s ba.position (varEncode s.length).length
      hwf1 (by omega)
  have hcap2 : ba.position ≤ ((ba.write (varEncode s.length)).write s).capacity := by
    have h3 := hwf2.2.2.1
    have h4 := hwf2.2.2.2
    omega
  have hset := setPosition_ok ((ba.write (varEncode s.length)).write s) ba.position hcap2
  rw [if_neg (by omega)] at hset
  refine ⟨{ (ba.write (varEncode s.length)).write s with position := ba.position, size := ((ba.write (varEncode s.length)).write s).size, cur := ba.position / ((ba.write (varEncode s.length)).write s).baseSize }, hset, ?_, ?_, ?_, ?_, ?_⟩
  · obtain ⟨a1, a2, a3, a4⟩ := hwf2
    refine ⟨a1, a2, ?_, a4⟩
    show ba.position ≤ ((ba.write (varEncode s.length)).write s).size
    omega
  · rfl
  · show ((ba.write (varEncode s.length)).write s).bytesAt ba.position
      (varEncode s.length).length = varEncode s.length
    rw [hframe]
    exact hcont1
  · show ((ba.write (varEncode s.length)).write s).bytesAt
      (ba.position + (varEncode s.length).length) s.length = s
    exact hcont2
  · show ba.position + (varEncode s.length).length + s.length ≤
      ((ba.write (varEncode s.length)).write s).size
    exact hsz2

theorem stringFixed_write_read (w : Nat) (s : List Nat) (ba : ByteArray)
    (hwf : ba.wf) (hw : 0 < w) (hlen : s.length < 256 ^ w) :
    ∃ ba' st, (ba.writeStringFixed w s).setPosition ba.position = .ok ba' ∧
      ba'.readStringFixed w = (.ok s, st) := by
  obtain ⟨ba', hset, hwfr, hposr, hendr, hhbr, hc1, hc2, hsz⟩ :=
    writeStringFixed_props w s ba hwf hw
  obtain ⟨st, hr⟩ := readStringFixed_ok ba' w ba.position s hwfr hw hposr hlen
    (by rw [hendr, hhbr]; exact hc1) hc2 hsz
  exact ⟨ba', st, hset, hr⟩

theorem stringVint_write_read (s : List Nat) (ba : ByteArray)
    (hwf : ba.wf) (hlen : s.length < 2 ^ 64) :
    ∃ ba' st, (ba.writeStringVint s).setPosition ba.position = .ok ba' ∧
      ba'.readStringVint = (.ok s, st) := by
  obtain ⟨ba', hset, hwfr, hposr, hc1, hc2, hsz⟩ := writeStringVint_props s ba hwf
  obtain ⟨st, hr⟩ := readStringVint_ok ba' ba.position s hwfr hposr hlen hc1 hc2 hsz
  exact ⟨ba', st, hset, hr⟩

/-- C10: a streaming read whose requested size exceeds the readable
length returns the out of range error before copying anything and
leaves the position, the size and the current node cursor of the
buffer exactly as they were; the thrown exception of the source
corresponds to the error value paired with the unchanged object. -/
theorem read_out_of_range_leaves_buffer (ba : ByteArray) (n : Nat)
    (h : ba.getReadSize < n) :
    ba.read n = (.error .outOfRange, ba) ∧
      (ba.read n).2.position = ba.position ∧
      (ba.read n).2.size = ba.size ∧
      (ba.read n).2.cur = ba.cur := by
  have hn : n ≠ 0 := by
    unfold ByteArray.getReadSize at h
    omega
  have hr : ba.read n = (.error .outOfRange, ba) := by
    unfold ByteArray.read
    rw [if_neg hn, if_pos h]
  exact ⟨hr, by rw [hr], by rw [hr], by rw [hr]⟩

/-- Witness for the read error theorem at a concrete buffer. -/
theorem read_out_of_range_leaves_buffer_witness :
    (mkByteArray 16 false).getReadSize < 5 ∧
      (mkByteArray 16 false).read 5 = (.error .outOfRange, mkByteArray 16 false) :=
  ⟨by decide, (read_out_of_range_leaves_buffer (mkByteArray 16 false) 5 (by decide)).1⟩

/-- C4 counterexample: a string of length 65536 written with the 16
bit fixed length prefix reads back as the empty string, because the
length cast truncates modulo 2 to the 16 while the body is written in
full; so the unrestricted round trip claim fails for fixed prefix
strings longer than the prefix range. -/
theorem writeStringF16_truncates_long_string :
    ∃ ba' st,
      ((mkByteArray 128 false).writeStringF16 (List.replicate 65536 97)).setPosition 0 =
        .ok ba' ∧
      ba'.readStringF16 = (.ok [], st) ∧
      (List.replicate 65536 97 : List Nat) ≠ [] := by
  have hwf0 : (mkByteArray 128 false).wf := by
    refine ⟨?_, ?_, ?_, ?_⟩ <;> simp [mkByteArray]
  obtain ⟨ba', hset, hwfr, hposr, hendr, hhbr, hc1, hc2, hsz⟩ :=
    writeStringFixed_props 2 (List.replicate 65536 97) (mkByteArray 128 false) hwf0
      (by norm_num)
  have hp0 : (mkByteArray 128 false).position = 0 := rfl
  have hlenrep : (List.replicate 65536 (97 : Nat)).length = 65536 := by
    rw [List.length_replicate]
  rw [hp0] at hset hc1 hc2 hsz
  rw [hlenrep] at hc1 hsz
  have hposr0 : ba'.position = 0 := by rw [hposr, hp0]
  have hc1e : ba'.bytesAt 0 2 =
      hostBytes ba'.hostBig 2 (convertEndian 2 (([] : List Nat).length) ba'.endian ba'.hostBig) := by
    rw [hendr, hhbr]
    have heq : hostBytes (mkByteArray 128 false).hostBig 2
        (convertEndian 2 (([] : List Nat).length) (mkByteArray 128 false).endian
          (mkByteArray 128 false).hostBig) =
        hostBytes (mkByteArray 128 false).hostBig 2
        (convertEndian 2 65536 (mkByteArray 128 false).endian
          (mkByteArray 128 false).hostBig) := by decide
    rw [heq]
    exact hc1
  have hc2e : ba'.bytesAt (0 + 2) (([] : List Nat).length) = ([] : List Nat) := by
    unfold ByteArray.bytesAt
    simp
  obtain ⟨st, hread⟩ := readStringFixed_ok ba' 2 0 [] hwfr (by norm_num) hposr0
    (by norm_num) hc1e hc2e
    (by
      have h0 : (([] : List Nat)).length = 0 := rfl
      omega)
  refine ⟨ba', st, hset, hread, ?_⟩
  intro hcon
  have hl := congrArg List.length hcon
  rw [List.length_replicate] at hl
  have h0 : (([] : List Nat)).length = 0 := rfl
  omega

/-- A fixed width read larger than the readable length fails with
out_of_range and returns the buffer unchanged. -/
theorem readFixed_err (ba : ByteArray) (w : Nat) (hw : 0 < w)
    (h : ba.size < ba.position + w) :
    ba.readFixed w = (.error RdErr.outOfRange, ba) := by
  unfold ByteArray.readFixed ByteArray.read ByteArray.getReadSize
  rw [if_neg (by omega), if_pos (by omega)]

/-- Writing a single byte into a fresh buffer and seeking back to zero
leaves one readable byte, so any wider fixed read fails. -/
theorem writeOneByte_setPos_readFixed_err (ba : ByteArray) (hwf : ba.wf) (w : Nat)
    (hw : 1 < w) (hpos : ba.position = 0) (hsz : ba.size = 0) :
    ∃ ba1, (ba.write [0]).setPosition 0 = .ok ba1 ∧
      ba1.readFixed w = (.error RdErr.outOfRange, ba1) := by
  rw [setPosition_ok _ 0 (Nat.zero_le _)]
  refine ⟨_, rfl, ?_⟩
  apply readFixed_err
  · omega
  · dsimp only
    have h1 : (ba.write [0]).size = 1 := by
      rw [write_size _ _ hwf, hpos, hsz]
      norm_num
    rw [h1, if_neg (by omega)]
    omega

/-- C4 (amended): round trip laws of the ByteArray codec.  For every
well formed buffer, with the buffer endianness setting and the host
endianness arbitrary: every fixed width unsigned or signed integer
within its width, every varint value below two to the width, every
float or double bit pattern, and every string whose length fits the
chosen length prefix (any length below two to the sixty four for the
varint prefix), written at the current position and then read back
with the matching read operation from the written position, yields
exactly the written value.  The signed zigzag pair is asymmetric in
the source: writeInt32 and writeInt64 emit the varint of the zigzag
while readInt32 and readInt64 decode the zigzag of a FIXED four or
eight byte read, so writing the zigzag through the fixed width writer
is what reads back with readInt32 and readInt64, and the write then
read pair fails already at the value zero, where the single varint
byte leaves fewer readable bytes than the fixed read demands.  The
claim as frozen also fails for fixed prefix strings whose length
exceeds the prefix range, as shown by the truncation counterexample. -/
theorem byteArray_round_trip (ba : ByteArray) (hwf : ba.wf) :
    (∀ v : Nat, v < 2 ^ 8 →
      ∃ ba' s, (ba.writeFuint8 v).setPosition ba.position = .ok ba' ∧
        ba'.readFuint8 = (.ok v, s)) ∧
    (∀ v : Nat, v < 2 ^ 16 →
      ∃ ba' s, (ba.writeFuint16 v).setPosition ba.position = .ok ba' ∧
        ba'.readFuint16 = (.ok v, s)) ∧
    (∀ v : Nat, v < 2 ^ 32 →
      ∃ ba' s, (ba.writeFuint32 v).setPosition ba.position = .ok ba' ∧
        ba'.readFuint32 = (.ok v, s)) ∧
    (∀ v : Nat, v < 2 ^ 64 →
      ∃ ba' s, (ba.writeFuint64 v).setPosition ba.position = .ok ba' ∧
        ba'.readFuint64 = (.ok v, s)) ∧
    (∀ v : Int, -(2 ^ 7) ≤ v → v < 2 ^ 7 →
      ∃ ba' s, (ba.writeFint8 v).setPosition ba.position = .ok ba' ∧
        ba'.readFint8 = (.ok v, s)) ∧
    (∀ v : Int, -(2 ^ 15) ≤ v → v < 2 ^ 15 →
      ∃ ba' s, (ba.writeFint16 v).setPosition ba.position = .ok ba' ∧
        ba'.readFint16 = (.ok v, s)) ∧
    (∀ v : Int, -(2 ^ 31) ≤ v → v < 2 ^ 31 →
      ∃ ba' s, (ba.writeFint32 v).setPosition ba.position = .ok ba' ∧
        ba'.readFint32 = (.ok v, s)) ∧
    (∀ v : Int, -(2 ^ 63) ≤ v → v < 2 ^ 63 →
      ∃ ba' s, (ba.writeFint64 v).setPosition ba.position = .ok ba' ∧
        ba'.readFint64 = (.ok v, s)) ∧
    (∀ bits : Nat, bits < 2 ^ 32 →
      ∃ ba' s, (ba.writeFloat bits).setPosition ba.position = .ok ba' ∧
        ba'.readFloat = (.ok bits, s)) ∧
    (∀ bits : Nat, bits < 2 ^ 64 →
      ∃ ba' s, (ba.writeDouble bits).setPosition ba.position = .ok ba' ∧
        ba'.readDouble = (.ok bits, s)) ∧
    (∀ v : Nat, v < 2 ^ 32 →
      ∃ ba' s, (ba.writeUint32 v).setPosition ba.position = .ok ba' ∧
        ba'.readUint32 = (.ok v, s)) ∧
    (∀ v : Nat, v < 2 ^ 64 →
      ∃ ba' s, (ba.writeUint64 v).setPosition ba.position = .ok ba' ∧
        ba'.readUint64 = (.ok v, s)) ∧
    (∀ v : Int, ba.writeInt32 v = ba.writeUint32 (EncodeZigzag32 v)) ∧
    (∀ v : Int, -(2 ^ 31) ≤ v → v < 2 ^ 31 →
      ∃ ba' s, (ba.writeFuint32 (EncodeZigzag32 v)).setPosition ba.position = .ok ba' ∧
        ba'.readInt32 = (.ok v, s)) ∧
    (∀ v : Int, ba.writeInt64 v = ba.writeUint64 (EncodeZigzag64 v)) ∧
    (∀ v : Int, -(2 ^ 63) ≤ v → v < 2 ^ 63 →
      ∃ ba' s, (ba.writeFuint64 (EncodeZigzag64 v)).setPosition ba.position = .ok ba' ∧
        ba'.readInt64 = (.ok v, s)) ∧
    (∀ s : List Nat, s.length < 2 ^ 16 →
      ∃ ba' st, (ba.writeStringF16 s).setPosition ba.position = .ok ba' ∧
        ba'.readStringF16 = (.ok s, st)) ∧
    (∀ s : List Nat, s.length < 2 ^ 32 →
      ∃ ba' st, (ba.writeStringF32 s).setPosition ba.position = .ok ba' ∧
        ba'.readStringF32 = (.ok s, st)) ∧
    (∀ s : List Nat, s.length < 2 ^ 64 →
      ∃ ba' st, (ba.writeStringF64 s).setPosition ba.position = .ok ba' ∧
        ba'.readStringF64 = (.ok s, st)) ∧
    (∀ s : List Nat, s.length < 2 ^ 64 →
      ∃ ba' st, (ba.writeStringVint s).setPosition ba.position = .ok ba' ∧
        ba'.readStringVint = (.ok s, st)) ∧
    (∃ ba1, ((mkByteArray 128 false).writeInt32 0).setPosition 0 = .ok ba1 ∧
      (ba1.readInt32).1 = .error RdErr.outOfRange) ∧
    (∃ ba1, ((mkByteArray 128 false).writeInt64 0).setPosition 0 = .ok ba1 ∧
      (ba1.readInt64).1 = .error RdErr.outOfRange) := by
  refine ⟨?_, ?_, ?_, ?_, ?_, ?_, ?_, ?_, ?_, ?_, ?_, ?_, ?_, ?_, ?_, ?_, ?_, ?_, ?_, ?_, ?_, ?_⟩
  · intro v hv
    exact fixed_write_read 1 v ba hwf (by norm_num) (by omega)
  · intro v hv
    exact fixed_write_read 2 v ba hwf (by norm_num) (by omega)
  · intro v hv
    exact fixed_write_read 4 v ba hwf (by norm_num) (by omega)
  · intro v hv
    exact fixed_write_read 8 v ba hwf (by norm_num) (by omega)
  · intro v h1 h2
    exact fixedI_write_read 1 v ba hwf (by norm_num) h1 h2
  · intro v h1 h2
    exact fixedI_write_read 2 v ba hwf (by norm_num) h1 h2
  · intro v h1 h2
    exact fixedI_write_read 4 v ba hwf (by norm_num) h1 h2
  · intro v h1 h2
    exact fixedI_write_read 8 v ba hwf (by norm_num) h1 h2
  · intro bits hb
    exact fixed_write_read 4 bits ba hwf (by norm_num) (by omega)
  · intro bits hb
    exact fixed_write_read 8 bits ba hwf (by norm_num) (by omega)
  · intro v hv
    exact varint_write_read 32 v ba hwf (by norm_num) hv
  · intro v hv
    exact varint_write_read 64 v ba hwf (by norm_num) hv
  · intro v
    rfl
  · intro v h1 h2
    obtain ⟨ba', st, hset, hrd⟩ :=
      fixed_write_read 4 (EncodeZigzag32 v) ba hwf (by norm_num)
        (by have h := encodeZigzag32_lt v; norm_num; omega)
    refine ⟨ba', st, hset, ?_⟩
    show ba'.readInt32 = (.ok v, st)
    unfold ByteArray.readInt32 ByteArray.readFuint32
    rw [hrd]
    dsimp only
    rw [decode_encode_zigzag32 v h1 h2]
  · intro v
    rfl
  · intro v h1 h2
    obtain ⟨ba', st, hset, hrd⟩ :=
      fixed_write_read 8 (EncodeZigzag64 v) ba hwf (by norm_num)
        (by have h := encodeZigzag64_lt v; norm_num; omega)
    refine ⟨ba', st, hset, ?_⟩
    show ba'.readInt64 = (.ok v, st)
    unfold ByteArray.readInt64 ByteArray.readFuint64
    rw [hrd]
    dsimp only
    rw [decode_encode_zigzag64 v h1 h2]
  · intro s hlen
    exact stringFixed_write_read 2 s ba hwf (by norm_num) (by omega)
  · intro s hlen
    exact stringFixed_write_read 4 s ba hwf (by norm_num) (by omega)
  · intro s hlen
    exact stringFixed_write_read 8 s ba hwf (by norm_num) (by omega)
  · intro s hlen
    exact stringVint_write_read s ba hwf hlen
  · have hwr : (mkByteArray 128 false).writeInt32 0 = (mkByteArray 128 false).write [0] := by
      unfold ByteArray.writeInt32 ByteArray.writeUint32
      rw [show EncodeZigzag32 0 = 0 from by decide, varEncode_small 0 (by norm_num)]
    have hwf0 : (mkByteArray 128 false).wf := by
      refine ⟨?_, ?_, ?_, ?_⟩ <;> simp [mkByteArray]
    obtain ⟨ba1, hset, herr⟩ :=
      writeOneByte_setPos_readFixed_err (mkByteArray 128 false) hwf0 4 (by norm_num) rfl rfl
    rw [hwr]
    refine ⟨ba1, hset, ?_⟩
    unfold ByteArray.readInt32 ByteArray.readFuint32
    rw [herr]
  · have hwr : (mkByteArray 128 false).writeInt64 0 = (mkByteArray 128 false).write [0] := by
      unfold ByteArray.writeInt64 ByteArray.writeUint64
      rw [show EncodeZigzag64 0 = 0 from by decide, varEncode_small 0 (by norm_num)]
    have hwf0 : (mkByteArray 128 false).wf := by
      refine ⟨?_, ?_, ?_, ?_⟩ <;> simp [mkByteArray]
    obtain ⟨ba1, hset, herr⟩ :=
      writeOneByte_setPos_readFixed_err (mkByteArray 128 false) hwf0 8 (by norm_num) rfl rfl
    rw [hwr]
    refine ⟨ba1, hset, ?_⟩
    unfold ByteArray.readInt64 ByteArray.readFuint64
    rw [herr]

/-- Witness for the round trip theorem: the 16 bit unsigned round
trip at the value 300 on a fresh little endian buffer. -/
theorem byteArray_round_trip_witness :
    (mkByteArray 128 false).wf ∧ (300 : Nat) < 2 ^ 16 ∧
      (∃ ba' s, ((mkByteArray 128 false).writeFuint16 300).setPosition
          (mkByteArray 128 false).position = .ok ba' ∧
        ba'.readFuint16 = (.ok 300, s)) :=
  ⟨by decide, by decide,
    (byteArray_round_trip (mkByteArray 128 false) (by decide)).2.1 300 (by decide)⟩

/-! Helper lemmas for the fd event table. -/

theorem ctxAt_lt_length (s : IOState) (fd : Nat) (c : FdContext)
    (h : s.ctxAt fd = some c) : fd < s.fdContexts.length := by
  by_contra hcon
  unfold IOState.ctxAt at h
  rw [List.getD_eq_getElem?_getD, List.getElem?_eq_none (by omega)] at h
  simp at h

theorem getD_set_self {α : Type} (l : List (Option α)) (i : Nat) (x : Option α)
    (h : i < l.length) : (l.set i x).getD i none = x := by
  rw [List.getD_eq_getElem?_getD, List.getElem?_set_self h]
  rfl

theorem getD_set_ne {α : Type} (l : List (Option α)) (i j : Nat) (x : Option α)
    (h : i ≠ j) : (l.set i x).getD j none = l.getD j none := by
  rw [List.getD_eq_getElem?_getD, List.getElem?_set_ne h, ← List.getD_eq_getElem?_getD]

theorem land_lor_self (x ev : Nat) : (x ||| ev) &&& ev = ev := by
  apply Nat.eq_of_testBit_eq
  intro j
  rw [Nat.testBit_land, Nat.testBit_lor]
  cases hx : x.testBit j <;> cases he : ev.testBit j <;> simp [hx, he]

theorem land_compl_self (x ev : Nat) (hev : ev < 2 ^ 32) :
    (x &&& (0xFFFFFFFF ^^^ ev)) &&& ev = 0 := by
  have hM : (0xFFFFFFFF : Nat) = 2 ^ 32 - 1 := by norm_num
  apply Nat.eq_of_testBit_eq
  intro j
  rw [hM, Nat.testBit_land, Nat.testBit_land, Nat.testBit_xor,
    Nat.testBit_two_pow_sub_one, Nat.zero_testBit]
  by_cases hj : j < 32
  · cases he : ev.testBit j <;> cases hx : x.testBit j <;> simp [hj, he, hx]
  · have hf : ev.testBit j = false :=
      Nat.testBit_eq_false_of_lt
        (lt_of_lt_of_le hev (Nat.pow_le_pow_right (by norm_num) (by omega)))
    simp [hf]

theorem getContext_setContext (c : FdContext) (ev : Nat) (e : EventContext) :
    (c.setContext ev e).getContext ev = e := by
  unfold FdContext.setContext FdContext.getContext
  by_cases h : ev = 1 <;> simp [h]

theorem setContext_events (c : FdContext) (ev : Nat) (e : EventContext) :
    (c.setContext ev e).events = c.events := by
  unfold FdContext.setContext
  by_cases h : ev = 1 <;> simp [h]

theorem resize_pending (s : IOState) (fd : Nat) :
    (resizeFdContext s fd).pendingEventCount = s.pendingEventCount := rfl

theorem resize_ctxAt (s : IOState) (fd f : Nat) :
    (resizeFdContext s fd).ctxAt f = s.ctxAt f ∨
      (s.ctxAt f = none ∧ f = fd ∧
        (resizeFdContext s fd).ctxAt f = some { fd := fd }) := by
  unfold resizeFdContext IOState.ctxAt
  dsimp only
  have hgrown : ∀ j : Nat,
      (if s.fdContexts.length ≤ fd
        then s.fdContexts ++
          List.replicate (growSize s.fdContexts.length fd - s.fdContexts.length) none
        else s.fdContexts).getD j none = s.fdContexts.getD j none := by
    intro j
    split
    · rw [List.getD_eq_getElem?_getD, List.getElem?_append]
      split
      · rw [← List.getD_eq_getElem?_getD]
      · next hj =>
        rw [List.getElem?_replicate, List.getD_eq_getElem?_getD,
          List.getElem?_eq_none (by omega)]
        split <;> rfl
    · rfl
  set G := (if s.fdContexts.length ≤ fd
    then s.fdContexts ++
      List.replicate (growSize s.fdContexts.length fd - s.fdContexts.length) none
    else s.fdContexts) with hGdef
  split
  · next hnone =>
    rw [Option.isNone_iff_eq_none] at hnone
    by_cases hf : f = fd
    · subst hf
      by_cases hlen : f < G.length
      · right
        refine ⟨?_, rfl, ?_⟩
        · rw [← hgrown f]
          exact hnone
        · rw [getD_set_self _ _ _ hlen]
      · left
        rw [List.set_eq_of_length_le (by omega), hgrown f]
    · left
      rw [getD_set_ne _ _ _ _ (fun hcon => hf hcon.symm), hgrown f]
  · left
    exact hgrown f

theorem resize_eventsAt (s : IOState) (fd f : Nat) :
    (resizeFdContext s fd).eventsAt f = s.eventsAt f := by
  unfold IOState.eventsAt
  rcases resize_ctxAt s fd f with h | ⟨h1, _h2, h3⟩
  · rw [h]
  · rw [h1, h3]

theorem resize_ectxAt (s : IOState) (fd f ev : Nat) :
    (resizeFdContext s fd).ectxAt f ev = s.ectxAt f ev := by
  unfold IOState.ectxAt
  rcases resize_ctxAt s fd f with h | ⟨h1, _h2, h3⟩
  · rw [h]
  · rw [h1, h3]
    unfold FdContext.getContext
    by_cases hev : ev = 1 <;> simp [hev]

theorem resize_ctxAt_some (s : IOState) (fd f : Nat) (c : FdContext)
    (h : s.ctxAt f = some c) : (resizeFdContext s fd).ctxAt f = some c := by
  rcases resize_ctxAt s fd f with h2 | ⟨h1, _, _⟩
  · rw [h2, h]
  · rw [h] at h1
    exact absurd h1 (by simp)

/-- The armed hypothesis unpacked: a nonzero masked eventsAt comes from a
stored context whose mask contains the event. -/
theorem armed_ctx (s : IOState) (fd ev : Nat) (h0 : s.eventsAt fd &&& ev ≠ 0) :
    ∃ ctx, s.ctxAt fd = some ctx ∧ ctx.events &&& ev ≠ 0 := by
  unfold IOState.eventsAt at h0
  rcases hm : s.ctxAt fd with _ | c
  · rw [hm] at h0
    exact absurd (Nat.zero_and ev) h0
  · rw [hm] at h0
    exact ⟨c, rfl, h0⟩

theorem delEvent_notArmed (s : IOState) (fd ev : Nat)
    (h0 : s.eventsAt fd &&& ev = 0) : delEvent s fd ev = ⟨false, s, none, []⟩ := by
  unfold delEvent
  split
  · rfl
  · split
    · rfl
    · next ctx hctx =>
      have hc : ctx.events &&& ev = 0 := by
        unfold IOState.eventsAt at h0
        rw [hctx] at h0
        exact h0
      rw [if_pos hc]

theorem cancelEvent_notArmed (s : IOState) (fd ev : Nat)
    (h0 : s.eventsAt fd &&& ev = 0) : cancelEvent s fd ev = ⟨false, s, none, []⟩ := by
  unfold cancelEvent
  split
  · rfl
  · split
    · rfl
    · next ctx hctx =>
      have hc : ctx.events &&& ev = 0 := by
        unfold IOState.eventsAt at h0
        rw [hctx] at h0
        exact h0
      rw [if_pos hc]

theorem triggerEvent_notArmed (s : IOState) (fd ev : Nat)
    (h0 : s.eventsAt fd &&& ev = 0) : triggerEvent s fd ev = ⟨false, s, none, []⟩ := by
  unfold triggerEvent
  split
  · rfl
  · split
    · rfl
    · next ctx hctx =>
      have hc : ctx.events &&& ev = 0 := by
        unfold IOState.eventsAt at h0
        rw [hctx] at h0
        exact h0
      rw [if_pos hc]

theorem delEvent_armed (s : IOState) (fd ev : Nat) (ctx : FdContext)
    (hctx : s.ctxAt fd = some ctx) (harm : ctx.events &&& ev ≠ 0) :
    delEvent s fd ev =
      ⟨true,
       { fdContexts := s.fdContexts.set fd
           (some (({ ctx with events := ctx.events &&& (0xFFFFFFFF ^^^ ev) }).setContext ev {})),
         pendingEventCount := sub64 s.pendingEventCount 1 },
       some (if ctx.events &&& (0xFFFFFFFF ^^^ ev) = 0 then EpollOp.del
         else EpollOp.mod (ctx.events &&& (0xFFFFFFFF ^^^ ev))), []⟩ := by
  have hlen := ctxAt_lt_length s fd ctx hctx
  unfold delEvent
  rw [if_neg (show ¬ s.fdContexts.length ≤ fd by omega), hctx]
  dsimp only
  rw [if_neg harm]

theorem cancelEvent_armed (s : IOState) (fd ev : Nat) (ctx : FdContext)
    (hctx : s.ctxAt fd = some ctx) (harm : ctx.events &&& ev ≠ 0) :
    cancelEvent s fd ev =
      ⟨true,
       { fdContexts := s.fdContexts.set fd
           (some (({ ctx with events := ctx.events &&& (0xFFFFFFFF ^^^ ev) }).setContext ev {})),
         pendingEventCount := sub64 s.pendingEventCount 1 },
       some (if ctx.events &&& (0xFFFFFFFF ^^^ ev) = 0 then EpollOp.del
         else EpollOp.mod (ctx.events &&& (0xFFFFFFFF ^^^ ev))),
       match (ctx.getContext ev).cb, (ctx.getContext ev).fiber with
         | some c2, _ => [Cont.cb c2]
         | none, some f => [Cont.fiber f]
         | none, none => []⟩ := by
  have hlen := ctxAt_lt_length s fd ctx hctx
  unfold cancelEvent
  rw [if_neg (show ¬ s.fdContexts.length ≤ fd by omega), hctx]
  dsimp only
  rw [if_neg harm]

theorem addEvent_none (s : IOState) (fd ev : Nat) (cb : Option Nat) (ok : Bool)
    (h : (resizeFdContext s fd).ctxAt fd = none) :
    addEvent s fd ev cb ok = (.error .epollErr, resizeFdContext s fd, none) := by
  unfold addEvent
  dsimp only
  split
  · rfl
  · next ctx hctx =>
    rw [h] at hctx
    cases hctx

theorem addEvent_eexist (s : IOState) (fd ev : Nat) (cb : Option Nat) (ok : Bool)
    (ctx : FdContext) (h : (resizeFdContext s fd).ctxAt fd = some ctx)
    (harm : ctx.events &&& ev ≠ 0) :
    addEvent s fd ev cb ok = (.error .eexist, resizeFdContext s fd, none) := by
  unfold addEvent
  dsimp only
  split
  · next hn =>
    rw [h] at hn
    cases hn
  · next ctx2 hctx =>
    rw [h] at hctx
    injection hctx with hceq
    subst hceq
    rw [if_pos harm]

theorem addEvent_epollFail (s : IOState) (fd ev : Nat) (cb : Option Nat)
    (ctx : FdContext) (h : (resizeFdContext s fd).ctxAt fd = some ctx)
    (hnarm : ctx.events &&& ev = 0) :
    addEvent s fd ev cb false = (.error .epollErr, resizeFdContext s fd,
      some (if ctx.events = 0 then EpollOp.add (ctx.events ||| ev)
        else EpollOp.mod (ctx.events ||| ev))) := by
  unfold addEvent
  dsimp only
  split
  · next hn =>
    rw [h] at hn
    cases hn
  · next ctx2 hctx =>
    rw [h] at hctx
    injection hctx with hceq
    subst hceq
    rw [if_neg (fun hc => hc hnarm)]
    rfl

theorem addEvent_ok (s : IOState) (fd ev : Nat) (cb : Option Nat)
    (ctx : FdContext) (h : (resizeFdContext s fd).ctxAt fd = some ctx)
    (hnarm : ctx.events &&& ev = 0) :
    addEvent s fd ev cb true =
      (.ok (), { fdContexts := (resizeFdContext s fd).fdContexts.set fd (some (({ ctx with events := ctx.events ||| ev }).setContext ev { ctx.getContext ev with scheduler := true, cb := cb })), pendingEventCount := add64 (resizeFdContext s fd).pendingEventCount },
       some (if ctx.events = 0 then EpollOp.add (ctx.events ||| ev)
        else EpollOp.mod (ctx.events ||| ev))) := by
  unfold addEvent
  dsimp only
  split
  · next hn =>
    rw [h] at hn
    cases hn
  · next ctx2 hctx =>
    rw [h] at hctx
    injection hctx with hceq
    subst hceq
    rw [if_neg (fun hc => hc hnarm)]
    rfl

/-- C8: delEvent returns false and changes nothing when the event is not
armed; when armed it reports DEL to the multiplexer when the new mask is
empty and MOD otherwise, clears the armed bit, resets the selected event
context, decrements the pending event count by one, leaves every other
descriptor untouched, and never submits the stored callback or fiber. -/
theorem delEvent_spec (s : IOState) (fd ev : Nat) (hev : ev < 2 ^ 32) :
    (delEvent s fd ev).subs = [] ∧
    (s.eventsAt fd &&& ev = 0 → delEvent s fd ev = ⟨false, s, none, []⟩) ∧
    (s.eventsAt fd &&& ev ≠ 0 →
      (delEvent s fd ev).ret = true ∧
      (delEvent s fd ev).st.eventsAt fd = s.eventsAt fd &&& (0xFFFFFFFF ^^^ ev) ∧
      (delEvent s fd ev).st.eventsAt fd &&& ev = 0 ∧
      (delEvent s fd ev).op =
        some (if s.eventsAt fd &&& (0xFFFFFFFF ^^^ ev) = 0 then EpollOp.del
          else EpollOp.mod (s.eventsAt fd &&& (0xFFFFFFFF ^^^ ev))) ∧
      (delEvent s fd ev).st.ectxAt fd ev = {} ∧
      (delEvent s fd ev).st.pendingEventCount = sub64 s.pendingEventCount 1 ∧
      ∀ f, f ≠ fd → (delEvent s fd ev).st.ctxAt f = s.ctxAt f) := by
  have hsubs : (delEvent s fd ev).subs = [] := by
    by_cases h0 : s.eventsAt fd &&& ev = 0
    · rw [delEvent_notArmed s fd ev h0]
    · obtain ⟨ctx, hctx, harm⟩ := armed_ctx s fd ev h0
      rw [delEvent_armed s fd ev ctx hctx harm]
  refine ⟨hsubs, delEvent_notArmed s fd ev, ?_⟩
  intro h0
  obtain ⟨ctx, hctx, harm⟩ := armed_ctx s fd ev h0
  have hlen := ctxAt_lt_length s fd ctx hctx
  have he : s.eventsAt fd = ctx.events := by
    unfold IOState.eventsAt
    rw [hctx]
  rw [delEvent_armed s fd ev ctx hctx harm]
  dsimp only
  refine ⟨rfl, ?_, ?_, ?_, ?_, rfl, ?_⟩
  · rw [he]
    unfold IOState.eventsAt IOState.ctxAt
    dsimp only
    rw [getD_set_self _ _ _ hlen]
    dsimp only
    rw [setContext_events]
  · unfold IOState.eventsAt IOState.ctxAt
    dsimp only
    rw [getD_set_self _ _ _ hlen]
    dsimp only
    rw [setContext_events]
    dsimp only
    exact land_compl_self ctx.events ev hev
  · rw [he]
  · unfold IOState.ectxAt IOState.ctxAt
    dsimp only
    rw [getD_set_self _ _ _ hlen]
    dsimp only
    rw [getContext_setContext]
  · intro f hf
    unfold IOState.ctxAt
    dsimp only
    exact getD_set_ne _ _ _ _ (fun hc => hf hc.symm)

theorem delEvent_spec_witness :
    (1 : Nat) < 2 ^ 32 ∧
      (addEvent initIOState 5 1 (some 7) true).2.1.eventsAt 5 &&& 1 ≠ 0 ∧
      (delEvent (addEvent initIOState 5 1 (some 7) true).2.1 5 1).ret = true ∧
      (delEvent (addEvent initIOState 5 1 (some 7) true).2.1 5 1).subs = [] :=
  ⟨by decide, by decide,
   ((delEvent_spec (addEvent initIOState 5 1 (some 7) true).2.1 5 1 (by decide)).2.2
      (by decide)).1,
   (delEvent_spec (addEvent initIOState 5 1 (some 7) true).2.1 5 1 (by decide)).1⟩

/-- C3: a failed addEvent leaves every observable of the fd table as it
was: every armed mask, every event context and the pending event count
are unchanged, and when the failure is due to the event being already
armed the error is EEXIST, so the first continuation stays in place. -/
theorem addEvent_failure_leaves_state (s : IOState) (fd ev : Nat) (cb : Option Nat)
    (epollOk : Bool) (e : AddErr)
    (herr : (addEvent s fd ev cb epollOk).1 = .error e) :
    (∀ f, (addEvent s fd ev cb epollOk).2.1.eventsAt f = s.eventsAt f) ∧
    (∀ f ev2, (addEvent s fd ev cb epollOk).2.1.ectxAt f ev2 = s.ectxAt f ev2) ∧
    (addEvent s fd ev cb epollOk).2.1.pendingEventCount = s.pendingEventCount ∧
    (s.eventsAt fd &&& ev ≠ 0 → e = AddErr.eexist) := by
  rcases hm : (resizeFdContext s fd).ctxAt fd with _ | ctx
  · rw [addEvent_none s fd ev cb epollOk hm] at herr ⊢
    refine ⟨fun f => resize_eventsAt s fd f, fun f e2 => resize_ectxAt s fd f e2,
      resize_pending s fd, ?_⟩
    intro harm2
    obtain ⟨c, hc, _⟩ := armed_ctx s fd ev harm2
    rw [resize_ctxAt_some s fd fd c hc] at hm
    cases hm
  · by_cases harm : ctx.events &&& ev ≠ 0
    · rw [addEvent_eexist s fd ev cb epollOk ctx hm harm] at herr ⊢
      dsimp only at herr
      injection herr with he2
      exact ⟨fun f => resize_eventsAt s fd f, fun f e2 => resize_ectxAt s fd f e2,
        resize_pending s fd, fun _ => he2.symm⟩
    · rw [not_not] at harm
      cases epollOk
      · rw [addEvent_epollFail s fd ev cb ctx hm harm] at herr ⊢
        refine ⟨fun f => resize_eventsAt s fd f, fun f e2 => resize_ectxAt s fd f e2,
          resize_pending s fd, ?_⟩
        intro harm2
        obtain ⟨c, hc, hcarm⟩ := armed_ctx s fd ev harm2
        rw [resize_ctxAt_some s fd fd c hc] at hm
        injection hm with hceq
        rw [hceq] at hcarm
        exact absurd harm hcarm
      · rw [addEvent_ok s fd ev cb ctx hm harm] at herr
        simp at herr

theorem addEvent_failure_leaves_state_witness :
    (addEvent (addEvent initIOState 5 1 (some 7) true).2.1 5 1 (some 9) true).1 =
        Except.error AddErr.eexist ∧
      (addEvent (addEvent initIOState 5 1 (some 7) true).2.1 5 1 (some 9) true).2.1.ectxAt
          5 1 =
        (addEvent initIOState 5 1 (some 7) true).2.1.ectxAt 5 1 :=
  ⟨by rfl,
   (addEvent_failure_leaves_state (addEvent initIOState 5 1 (some 7) true).2.1 5 1 (some 9)
      true AddErr.eexist (by rfl)).2.1 5 1⟩

/-- C1: when the callback c is armed on (fd, ev), cancelEvent returns true
and submits exactly the single continuation c to the scheduler; on the
resulting state a second cancelEvent, a delEvent and a triggerEvent on the
same pair all return false and submit nothing, and a successful
addEvent(fd, ev, c) is exactly what arms c. -/
theorem cancelEvent_submits_once (s : IOState) (fd ev c : Nat)
    (hev : ev = 1 ∨ ev = 4) (h : ArmedCb s fd ev c) :
    (cancelEvent s fd ev).ret = true ∧
    (cancelEvent s fd ev).subs = [Cont.cb c] ∧
    (cancelEvent (cancelEvent s fd ev).st fd ev).ret = false ∧
    (cancelEvent (cancelEvent s fd ev).st fd ev).subs = [] ∧
    (delEvent (cancelEvent s fd ev).st fd ev).subs = [] ∧
    (triggerEvent (cancelEvent s fd ev).st fd ev).ret = false ∧
    (triggerEvent (cancelEvent s fd ev).st fd ev).subs = [] ∧
    (∀ s0, (addEvent s0 fd ev (some c) true).1 = Except.ok () →
      ArmedCb (addEvent s0 fd ev (some c) true).2.1 fd ev c) := by
  obtain ⟨ctx, hctx, harm, hcb⟩ := h
  have hlen := ctxAt_lt_length s fd ctx hctx
  have hevlt : ev < 2 ^ 32 := by
    rcases hev with h1 | h1 <;> rw [h1] <;> norm_num
  have hcan := cancelEvent_armed s fd ev ctx hctx harm
  have hst : (cancelEvent s fd ev).st.eventsAt fd &&& ev = 0 := by
    rw [hcan]
    unfold IOState.eventsAt IOState.ctxAt
    dsimp only
    rw [getD_set_self _ _ _ hlen]
    dsimp only
    rw [setContext_events]
    dsimp only
    exact land_compl_self ctx.events ev hevlt
  refine ⟨?_, ?_, ?_, ?_, ?_, ?_, ?_, ?_⟩
  · rw [hcan]
  · rw [hcan]
    dsimp only
    rw [hcb]
  · rw [cancelEvent_notArmed _ fd ev hst]
  · rw [cancelEvent_notArmed _ fd ev hst]
  · rw [delEvent_notArmed _ fd ev hst]
  · rw [triggerEvent_notArmed _ fd ev hst]
  · rw [triggerEvent_notArmed _ fd ev hst]
  · intro s0 hok
    rcases hm : (resizeFdContext s0 fd).ctxAt fd with _ | ctx0
    · rw [addEvent_none s0 fd ev (some c) true hm] at hok
      simp at hok
    · by_cases harm0 : ctx0.events &&& ev ≠ 0
      · rw [addEvent_eexist s0 fd ev (some c) true ctx0 hm harm0] at hok
        simp at hok
      · rw [not_not] at harm0
        rw [addEvent_ok s0 fd ev (some c) ctx0 hm harm0]
        refine ⟨({ ctx0 with events := ctx0.events ||| ev }).setContext ev { ctx0.getContext ev with scheduler := true, cb := some c }, ?_, ?_, ?_⟩
        · unfold IOState.ctxAt
          dsimp only
          exact getD_set_self _ _ _ (ctxAt_lt_length _ fd ctx0 hm)
        · rw [setContext_events]
          dsimp only
          rw [land_lor_self]
          rcases hev with h1 | h1 <;> rw [h1] <;> norm_num
        · rw [getContext_setContext]

theorem cancelEvent_submits_once_witness :
    ((1 : Nat) = 1 ∨ (1 : Nat) = 4) ∧
      ArmedCb (addEvent initIOState 5 1 (some 7) true).2.1 5 1 7 ∧
      (cancelEvent (addEvent initIOState 5 1 (some 7) true).2.1 5 1).subs = [Cont.cb 7] ∧
      (cancelEvent (cancelEvent (addEvent initIOState 5 1 (some 7) true).2.1 5 1).st 5
          1).subs = [] :=
  ⟨Or.inl rfl,
   ⟨{ events := 1, read := { scheduler := true, fiber := none, cb := some 7 }, write := {}, fd := 5 }, by decide, by decide, by decide⟩,
   (cancelEvent_submits_once (addEvent initIOState 5 1 (some 7) true).2.1 5 1 7 (Or.inl rfl)
      ⟨{ events := 1, read := { scheduler := true, fiber := none, cb := some 7 }, write := {}, fd := 5 }, by decide, by decide, by decide⟩).2.1,
   (cancelEvent_submits_once (addEvent initIOState 5 1 (some 7) true).2.1 5 1 7 (Or.inl rfl)
      ⟨{ events := 1, read := { scheduler := true, fiber := none, cb := some 7 }, write := {}, fd := 5 }, by decide, by decide, by decide⟩).2.2.2.1⟩

/-- C2: refuted on the code: the pending event counter does not stay equal
to the number of armed (fd, event) pairs.  Arming only READ on descriptor
five and then calling cancelAll leaves zero armed pairs, yet the counter,
decremented by two unconditionally, wraps around to 2 to the 64 minus
one.  Right before the cancelAll the invariant still holds with both
sides one, so the divergence is introduced by cancelAll itself. -/
theorem cancelAll_pending_count_bug :
    (addEvent initIOState 5 1 (some 7) true).2.1.pendingEventCount = 1 ∧
      armedPairs (addEvent initIOState 5 1 (some 7) true).2.1 = 1 ∧
      (cancelAll (addEvent initIOState 5 1 (some 7) true).2.1 5).ret = true ∧
      armedPairs (cancelAll (addEvent initIOState 5 1 (some 7) true).2.1 5).st = 0 ∧
      (cancelAll (addEvent initIOState 5 1 (some 7) true).2.1 5).st.pendingEventCount =
        2 ^ 64 - 1 ∧
      (cancelAll (addEvent initIOState 5 1 (some 7) true).2.1 5).st.pendingEventCount ≠
        armedPairs (cancelAll (addEvent initIOState 5 1 (some 7) true).2.1 5).st := by
  refine ⟨?_, ?_, ?_, ?_, ?_, ?_⟩ <;> decide

theorem getD_set_self2 {α : Type} (l : List α) (i : Nat) (x d : α)
    (h : i < l.length) : (l.set i x).getD i d = x := by
  rw [List.getD_eq_getElem?_getD, List.getElem?_set_self h]
  rfl

theorem getD_set_ne2 {α : Type} (l : List α) (i j : Nat) (x d : α)
    (h : i ≠ j) : (l.set i x).getD j d = l.getD j d := by
  rw [List.getD_eq_getElem?_getD, List.getElem?_set_ne h, ← List.getD_eq_getElem?_getD]

/-- The net effect of the trampoline on the thread state. -/
theorem MainFunc_eq (ts : TS) (i : Nat) (throws : Bool) (hlen : i < ts.fibers.length) :
    MainFunc ts i throws =
      { fibers := ts.fibers.set i (if (ts.fiberAt i).cb.isSome && throws then { ts.fiberAt i with state := FiberState.TERM } else { ts.fiberAt i with cb := none, state := FiberState.TERM }), tMain := ts.tMain, tCur := ts.tMain } := by
  unfold MainFunc TS.updFiber TS.fiberAt
  dsimp only
  rw [getD_set_self2 _ _ _ _ hlen]
  dsimp only
  by_cases hc : ((ts.fibers.getD i {}).cb.isSome && throws) = true
  · rw [if_pos hc]
    dsimp only
    rw [List.set_set, if_pos hc]
  · rw [if_neg hc]
    dsimp only
    rw [List.set_set, if_neg hc]

/-- C5 counterexample: when the closure throws, the trampoline reaches
TERM with the closure still stored, against the claim that a fiber
observed in TERM never still holds its entry closure. -/
theorem mainFunc_exception_keeps_closure :
    ((MainFunc { fibers := [{}, { state := FiberState.INIT, cb := some 3 }], tMain := some 0, tCur := some 1 } 1 true).fiberAt 1).state = FiberState.TERM ∧
      ((MainFunc { fibers := [{}, { state := FiberState.INIT, cb := some 3 }], tMain := some 0, tCur := some 1 } 1 true).fiberAt 1).cb = some 3 := by
  refine ⟨?_, ?_⟩ <;> decide

/-- C5, amended: the trampoline always sets the fiber state to TERM and
switches the current pointer back to the main fiber; the closure is
cleared exactly on the normal return path, and is kept untouched when
the closure throws. -/
theorem mainFunc_trampoline (ts : TS) (i : Nat) (throws : Bool)
    (hlen : i < ts.fibers.length) :
    ((MainFunc ts i throws).fiberAt i).state = FiberState.TERM ∧
    (MainFunc ts i throws).tCur = ts.tMain ∧
    (MainFunc ts i throws).tMain = ts.tMain ∧
    (((ts.fiberAt i).cb.isSome && throws) = false →
      ((MainFunc ts i throws).fiberAt i).cb = none) ∧
    (((ts.fiberAt i).cb.isSome && throws) = true →
      ((MainFunc ts i throws).fiberAt i).cb = (ts.fiberAt i).cb) := by
  rw [MainFunc_eq ts i throws hlen]
  unfold TS.fiberAt
  dsimp only
  rw [getD_set_self2 _ _ _ _ hlen]
  by_cases hc : ((ts.fibers.getD i {}).cb.isSome && throws) = true
  · rw [if_pos hc]
    refine ⟨rfl, rfl, rfl, ?_, ?_⟩
    · intro hf
      rw [hc] at hf
      cases hf
    · intro _
      rfl
  · rw [if_neg hc]
    refine ⟨rfl, rfl, rfl, ?_, ?_⟩
    · intro _
      rfl
    · intro ht
      exact absurd ht hc

theorem mainFunc_trampoline_witness :
    (1 : Nat) < 2 ∧
      ((MainFunc { fibers := [{}, { state := FiberState.INIT, cb := some 3 }], tMain := some 0, tCur := some 0 } 1 false).fiberAt 1).state = FiberState.TERM ∧
      ((MainFunc { fibers := [{}, { state := FiberState.INIT, cb := some 3 }], tMain := some 0, tCur := some 0 } 1 false).fiberAt 1).cb = none :=
  ⟨by decide,
   (mainFunc_trampoline ⟨[{}, { state := FiberState.INIT, cb := some 3 }], some 0, some 0⟩ 1 false (by decide)).1,
   (mainFunc_trampoline ⟨[{}, { state := FiberState.INIT, cb := some 3 }], some 0, some 0⟩ 1 false (by decide)).2.2.2.1 (by decide)⟩

/-- C6: swapOut sets HOLD only when the state is EXEC at the call and
otherwise leaves the fiber record untouched while switching the current
pointer to the main fiber; a fiber yielding through YieldToReady is
observed READY after the swap, not HOLD. -/
theorem swapOut_preserves_preset_state (ts : TS) (m i : Nat)
    (hm : ts.tMain = some m) (hlen : i < ts.fibers.length) (hcur : ts.tCur = some i) :
    ((ts.fiberAt i).state = FiberState.EXEC →
      swapOut ts i = some { ts.updFiber i { ts.fiberAt i with state := FiberState.HOLD } with tCur := some m }) ∧
    ((ts.fiberAt i).state ≠ FiberState.EXEC →
      swapOut ts i = some { ts with tCur := some m }) ∧
    (∃ ts2, YieldToReady ts = some ts2 ∧ ts2.tCur = some m ∧
      ts2.fiberAt i = { ts.fiberAt i with state := FiberState.READY }) := by
  refine ⟨?_, ?_, ?_⟩
  · intro hx
    unfold swapOut
    rw [hm]
    dsimp only
    rw [if_pos hx]
  · intro hx
    unfold swapOut
    rw [hm]
    dsimp only
    rw [if_neg hx, hm]
  · have hg : GetThis ts = (ts, i) := by
      unfold GetThis
      rw [hcur]
    unfold YieldToReady
    rw [hg]
    dsimp only
    have hr2 : (ts.updFiber i { ts.fiberAt i with state := FiberState.READY }).fiberAt i =
        { ts.fiberAt i with state := FiberState.READY } := by
      unfold TS.updFiber TS.fiberAt
      dsimp only
      exact getD_set_self2 _ _ _ _ hlen
    unfold swapOut
    rw [show (ts.updFiber i { ts.fiberAt i with state := FiberState.READY }).tMain = some m from hm]
    dsimp only
    rw [hr2]
    dsimp only
    rw [if_neg (by decide)]
    exact ⟨_, rfl, rfl, hr2⟩

theorem swapOut_preserves_preset_state_witness :
    ({ fibers := [{}, { state := FiberState.READY, cb := none }], tMain := some 0, tCur := some 1 } : TS).tMain = some 0 ∧
      (1 : Nat) < 2 ∧
      swapOut { fibers := [{}, { state := FiberState.READY, cb := none }], tMain := some 0, tCur := some 1 } 1 =
        some { fibers := [{}, { state := FiberState.READY, cb := none }], tMain := some 0, tCur := some 0 } :=
  ⟨rfl, by decide,
   (swapOut_preserves_preset_state ⟨[{}, { state := FiberState.READY, cb := none }], some 0, some 1⟩ 0 1 rfl (by decide) rfl).2.1 (by decide)⟩

/-- C7: takeOneTask removes and returns the first task in insertion
order whose affinity is unset or equal to the calling thread, skipping
exactly the affinity mismatches and keeping them queued; a queue of
only mismatches yields nothing and is left intact; and schedulerNoLock
appends at the back, reporting a tickle exactly when the queue was
empty. -/
theorem takeOneTask_affinity_fifo (cur : Nat) (pre post : List FiberAndThread)
    (t : FiberAndThread)
    (hpre : ∀ u ∈ pre, u.threadid ≠ none ∧ u.threadid ≠ some cur)
    (ht : t.threadid = none ∨ t.threadid = some cur) :
    takeOneTask cur (pre ++ t :: post) = (some t, pre ++ post) ∧
    (∀ q : List FiberAndThread,
      (∀ u ∈ q, u.threadid ≠ none ∧ u.threadid ≠ some cur) →
        takeOneTask cur q = (none, q)) ∧
    (∀ q fc thr, (schedulerNoLock q fc thr).1 = q.isEmpty) ∧
    (∀ q fc thr, (schedulerNoLock q fc thr).2 = q ++ [ftOf fc thr]) := by
  refine ⟨?_, ?_, ?_, ?_⟩
  · induction pre with
    | nil =>
      simp only [List.nil_append, takeOneTask]
      rw [if_neg (by rcases ht with h | h <;> simp [h])]
    | cons u us ih =>
      have hu := hpre u (List.mem_cons_self u us)
      have ih2 := ih (fun v hv => hpre v (List.mem_cons_of_mem u hv))
      simp only [List.cons_append, takeOneTask, List.append_eq]
      rw [if_pos hu, ih2]
  · intro q
    induction q with
    | nil =>
      intro _
      rfl
    | cons u us ih =>
      intro hq
      simp only [takeOneTask]
      rw [if_pos (hq u (List.mem_cons_self u us)),
        ih (fun v hv => hq v (List.mem_cons_of_mem u hv))]
  · intro q fc thr
    cases fc <;> rfl
  · intro q fc thr
    cases fc <;> rfl

theorem takeOneTask_affinity_fifo_witness :
    (∀ u ∈ [({ cb := some 10, threadid := some 1 } : FiberAndThread)],
      u.threadid ≠ none ∧ u.threadid ≠ some 2) ∧
      takeOneTask 2 [{ cb := some 10, threadid := some 1 }, { cb := some 11 }, { cb := some 12 }] =
        (some { cb := some 11 }, [{ cb := some 10, threadid := some 1 }, { cb := some 12 }]) :=
  ⟨by decide,
   (takeOneTask_affinity_fifo 2 [{ cb := some 10, threadid := some 1 }] [{ cb := some 12 }]
      { cb := some 11 } (by decide) (Or.inl rfl)).1⟩

theorem reach_blocked_invariant (a b : RSys) (h : Reach a b) :
    a.worker = WStatus.blocked → a.eventfdVal = 0 → a.ready = false →
      b.worker = WStatus.blocked ∧ b.eventfdVal = 0 ∧ b.ready = false := by
  induction h with
  | refl s =>
    intro h1 h2 h3
    exact ⟨h1, h2, h3⟩
  | step s t u hst htu ih =>
    intro h1 h2 h3
    cases hst with
    | wake hb hcond =>
      rcases hcond with h4 | h4
      · rw [h2] at h4
        omega
      · rw [h3] at h4
        cases h4
    | loopWait hp hns =>
      rw [h1] at hp
      cases hp
    | loopExit hp hs =>
      rw [h1] at hp
      cases hp

/-- C9: refuted on the code for the reactor: after stop() sets the
stopping flag and broadcasts the condition variable, a worker blocked in
the infinite epoll_wait with no ready event and an unwritten eventfd
stays blocked in every reachable state, so it never exits the run loop
and the joins in stop() never return; one ioTickle eventfd write would
let it wake and exit, but stop() never performs it. -/
theorem stop_leaves_reactor_worker_blocked (s0 : RSys)
    (hw : s0.worker = WStatus.blocked) (he : s0.eventfdVal = 0)
    (hr : s0.ready = false) :
    (schedStop s0).stopping = true ∧
    (∀ t, Reach (schedStop s0) t → t.worker = WStatus.blocked) ∧
    (∃ u, Reach (ioTickle (schedStop s0)) u ∧ u.worker = WStatus.exited) := by
  refine ⟨rfl, ?_, ?_⟩
  · intro t hrch
    exact (reach_blocked_invariant (schedStop s0) t hrch hw he hr).1
  · refine ⟨_, Reach.step _ _ _ (RStep.wake (ioTickle (schedStop s0)) hw (Or.inl (Nat.succ_pos _)))
      (Reach.step _ _ _ (RStep.loopExit _ rfl rfl) (Reach.refl _)), rfl⟩

theorem stop_leaves_reactor_worker_blocked_witness :
    ({ stopping := false, eventfdVal := 0, ready := false, worker := WStatus.blocked } : RSys).worker = WStatus.blocked ∧
      (∀ t, Reach (schedStop { stopping := false, eventfdVal := 0, ready := false, worker := WStatus.blocked }) t → t.worker = WStatus.blocked) :=
  ⟨rfl,
   (stop_leaves_reactor_worker_blocked { stopping := false, eventfdVal := 0, ready := false, worker := WStatus.blocked } rfl rfl rfl).2.1⟩

end sunshine
